import Mathlib

/-!
Verification development for the MoriaManager save-file core
(`src/moria_manager/core/save_parser.py`).

Bytes and decoded strings are both modelled as `List Nat`: a byte buffer is a
list of values < 256, a decoded string is a list of Unicode scalar values
(this mirrors Python `bytes` and `str`).  `zlib.decompress` is an external
library call; it is modelled as an explicit function parameter
`inflate : List Nat → Option (List Nat)` threaded through the definitions
that call it (`none` models `zlib.error`).
-/

set_option maxRecDepth 4000

namespace Moria

/-- Byte buffers (`bytes` in the source). -/
abbrev Bytes := List Nat

/-- Decoded text (`str` in the source), as a list of Unicode scalar values. -/
abbrev UStr := List Nat

/-- Literal helper: a Lean string as its list of Unicode scalar values. -/
def strL (s : String) : List Nat := s.toList.map Char.toNat

/-- Smallest index at which `pat` occurs in `s` (Python `bytes.find` /
`str.find`, with `none` for the `-1` case). -/
def findSub (s pat : List Nat) : Option Nat :=
  (List.range (s.length + 1)).find? (fun i => pat.isPrefixOf (s.drop i))

/-- Python `pat in s` (substring containment). -/
def containsSub (s pat : List Nat) : Bool :=
  (findSub s pat).isSome

/-- Python slice `s[start : start + len]` (clipping at the end of the list). -/
def sliceClip (s : List Nat) (start len : Nat) : List Nat :=
  (s.drop start).take len

/-- Read 4 bytes at `pos` as an unsigned little-endian 32-bit integer
(Python `struct.unpack("<I", data[pos:pos+4])`); `none` models
`struct.error` when fewer than 4 bytes are available. -/
def readUInt32 (data : List Nat) (pos : Nat) : Option Nat :=
  match data.get? pos, data.get? (pos+1), data.get? (pos+2), data.get? (pos+3) with
  | some b0, some b1, some b2, some b3 => some (b0 + 256 * b1 + 65536 * b2 + 16777216 * b3)
  | _, _, _, _ => none

/-- Interpret an unsigned 32-bit value as a signed one (two's complement). -/
def toSigned32 (u : Nat) : Int :=
  if u < 2147483648 then (u : Int) else (u : Int) - 4294967296

/-- Read 4 bytes at `pos` as a signed little-endian 32-bit integer
(Python `struct.unpack("<i", data[pos:pos+4])`). -/
def readInt32 (data : List Nat) (pos : Nat) : Option Int :=
  (readUInt32 data pos).map toSigned32

/-- Little-endian byte encoding of a signed 32-bit integer (two's complement),
used to build concrete test buffers. -/
def encInt32 (z : Int) : List Nat :=
  let u := (z % 4294967296).toNat
  [u % 256, (u / 256) % 256, (u / 65536) % 256, (u / 16777216) % 256]

/-- A Unicode scalar value: in range and not a surrogate. -/
def ValidCP (c : Nat) : Prop := c < 1114112 ∧ (c < 55296 ∨ 57343 < c)

instance : DecidablePred ValidCP := fun c => by unfold ValidCP; infer_instance

/-- The UTF-8 encoding of one Unicode scalar value. -/
def utf8Char (c : Nat) : List Nat :=
  if c < 128 then [c]
  else if c < 2048 then [192 + c / 64, 128 + c % 64]
  else if c < 65536 then [224 + c / 4096, 128 + (c / 64) % 64, 128 + c % 64]
  else [240 + c / 262144, 128 + (c / 4096) % 64, 128 + (c / 64) % 64, 128 + c % 64]

/-- UTF-8 encoding of a string (Python `s.encode("utf-8")` for valid text). -/
def utf8Enc (s : UStr) : Bytes := (s.map utf8Char).flatten

/-- Is `b` a UTF-8 continuation byte? -/
def isCont (b : Nat) : Bool := 128 ≤ b && b < 192

/-- The replacement character U+FFFD. -/
def repCP : Nat := 65533

/-- Classification of a UTF-8 lead byte: either directly emitted scalars
(ASCII, or U+FFFD for an invalid lead) or a decoder state
`(acc, need, lo, hi)`: accumulated value, remaining continuation count, and
the admissible range of the next continuation byte (the E0/ED/F0/F4 lead
bytes restrict their first continuation byte). -/
def utf8Lead (b : Nat) : Sum (List Nat) (Nat × Nat × Nat × Nat) :=
  if b < 128 then Sum.inl [b]
  else if b < 194 then Sum.inl [repCP]
  else if b < 224 then Sum.inr (b - 192, 1, 128, 191)
  else if b < 240 then
    Sum.inr (b - 224, 2, if b = 224 then 160 else 128, if b = 237 then 159 else 191)
  else if b < 245 then
    Sum.inr (b - 240, 3, if b = 240 then 144 else 128, if b = 244 then 143 else 191)
  else Sum.inl [repCP]

/-- Streaming UTF-8 decoder with `errors="replace"` (the state machine form
of Python `bytes.decode("utf-8", errors="replace")`): a malformed sequence
consumes its maximal valid prefix, yields one U+FFFD, and the offending
byte is reprocessed as a lead byte. -/
def utf8DecSM : Option (Nat × Nat × Nat × Nat) → List Nat → List Nat
  | none, [] => []
  | some _, [] => [repCP]
  | none, b :: bs =>
    match utf8Lead b with
    | Sum.inl cps => cps ++ utf8DecSM none bs
    | Sum.inr st => utf8DecSM (some st) bs
  | some (acc, need, lo, hi), b :: bs =>
    if lo ≤ b ∧ b ≤ hi then
      if need ≤ 1 then (64 * acc + (b - 128)) :: utf8DecSM none bs
      else utf8DecSM (some (64 * acc + (b - 128), need - 1, 128, 191)) bs
    else
      repCP ::
        (match utf8Lead b with
         | Sum.inl cps => cps ++ utf8DecSM none bs
         | Sum.inr st => utf8DecSM (some st) bs)

/-- `bytes.decode("utf-8", errors="replace")`. -/
def utf8Dec (l : List Nat) : List Nat := utf8DecSM none l

/-- UTF-16 code units of one Unicode scalar value (a surrogate pair above
the basic multilingual plane). -/
def utf16Units (c : Nat) : List Nat :=
  if c < 65536 then [c]
  else [55296 + (c - 65536) / 1024, 56320 + (c - 65536) % 1024]

/-- Number of UTF-16 code units of a string (`len` of a Python `str` for
basic-plane text; astral characters count as two units). -/
def utf16Len (s : UStr) : Nat := ((s.map utf16Units).flatten).length

/-- UTF-16-LE encoding of a string (Python `s.encode("utf-16-le")`). -/
def utf16Enc (s : UStr) : Bytes :=
  ((s.map utf16Units).flatten).map (fun u => [u % 256, u / 256]) |>.flatten

/-- Streaming UTF-16-LE decoder with `errors="replace"`; the state is a
pending high surrogate.  A lone surrogate and an odd trailing byte each
yield one U+FFFD (Python `bytes.decode("utf-16-le", errors="replace")`). -/
def utf16DecSM : Option Nat → List Nat → List Nat
  | none, [] => []
  | some _, [] => [repCP]
  | none, [_] => [repCP]
  | some _, [_] => [repCP, repCP]
  | none, b0 :: b1 :: bs =>
    let u := b0 + 256 * b1
    if u < 55296 ∨ 57343 < u then u :: utf16DecSM none bs
    else if u < 56320 then utf16DecSM (some u) bs
    else repCP :: utf16DecSM none bs
  | some u, b0 :: b1 :: bs =>
    let v := b0 + 256 * b1
    if 56320 ≤ v ∧ v < 57344 then
      (65536 + 1024 * (u - 55296) + (v - 56320)) :: utf16DecSM none bs
    else if v < 55296 ∨ 57343 < v then repCP :: v :: utf16DecSM none bs
    else if v < 56320 then repCP :: utf16DecSM (some v) bs
    else repCP :: repCP :: utf16DecSM none bs

/-- `bytes.decode("utf-16-le", errors="replace")`. -/
def utf16Dec (l : List Nat) : List Nat := utf16DecSM none l

/-! ### Round-trip lemmas for the primitive codecs -/

theorem get?_append_len (xs ys : List Nat) (k : Nat) :
    (xs ++ ys).get? (xs.length + k) = ys.get? k := by
  induction xs with
  | nil => simp
  | cons a l ih =>
    have : (a :: l).length + k = (l.length + k) + 1 := by simp; omega
    rw [this]
    simpa using ih

theorem readUInt32_append (pre : Bytes) (b0 b1 b2 b3 : Nat) (rest : Bytes) :
    readUInt32 (pre ++ b0 :: b1 :: b2 :: b3 :: rest) pre.length
      = some (b0 + 256 * b1 + 65536 * b2 + 16777216 * b3) := by
  unfold readUInt32
  have h0 := get?_append_len pre (b0 :: b1 :: b2 :: b3 :: rest) 0
  have h1 := get?_append_len pre (b0 :: b1 :: b2 :: b3 :: rest) 1
  have h2 := get?_append_len pre (b0 :: b1 :: b2 :: b3 :: rest) 2
  have h3 := get?_append_len pre (b0 :: b1 :: b2 :: b3 :: rest) 3
  simp only [Nat.add_zero] at h0
  rw [h0, h1, h2, h3]
  rfl

theorem readInt32_encInt32 (pre : Bytes) (z : Int) (rest : Bytes)
    (h1 : -2147483648 ≤ z) (h2 : z < 2147483648) :
    readInt32 (pre ++ (encInt32 z ++ rest)) pre.length = some z := by
  have hu : ((z % 4294967296).toNat : Int) = z % 4294967296 := by omega
  unfold readInt32 encInt32
  rw [show pre ++ ([(z % 4294967296).toNat % 256, ((z % 4294967296).toNat / 256) % 256,
        ((z % 4294967296).toNat / 65536) % 256, ((z % 4294967296).toNat / 16777216) % 256] ++ rest)
      = pre ++ (z % 4294967296).toNat % 256 :: ((z % 4294967296).toNat / 256) % 256 ::
        ((z % 4294967296).toNat / 65536) % 256 :: ((z % 4294967296).toNat / 16777216) % 256 :: rest
      from by rfl]
  rw [readUInt32_append]
  simp only [Option.map_some']
  have hred : (z % 4294967296).toNat % 256 + 256 * ((z % 4294967296).toNat / 256 % 256) +
        65536 * ((z % 4294967296).toNat / 65536 % 256) +
      16777216 * ((z % 4294967296).toNat / 16777216 % 256) = (z % 4294967296).toNat := by
    omega
  rw [hred]
  refine congrArg some ?_
  unfold toSigned32
  split <;> omega

theorem utf8Enc_cons (c : Nat) (s : UStr) :
    utf8Enc (c :: s) = utf8Char c ++ utf8Enc s := by
  simp [utf8Enc]

theorem utf8Dec_char (c : Nat) (hv : ValidCP c) (rest : List Nat) :
    utf8Dec (utf8Char c ++ rest) = c :: utf8Dec rest := by
  obtain ⟨hlt, hsur⟩ := hv
  unfold utf8Dec
  by_cases hc1 : c < 128
  · have e : utf8Char c ++ rest = c :: rest := by simp [utf8Char, hc1]
    rw [e]
    simp [utf8DecSM, utf8Lead, hc1]
  · by_cases hc2 : c < 2048
    · have e : utf8Char c ++ rest = (192 + c / 64) :: (128 + c % 64) :: rest := by
        simp [utf8Char, hc1, hc2]
      have hl : utf8Lead (192 + c / 64) = Sum.inr (192 + c / 64 - 192, 1, 128, 191) := by
        unfold utf8Lead
        rw [if_neg (by omega), if_neg (by omega), if_pos (by omega)]
      have h4 : 128 ≤ 128 + c % 64 ∧ 128 + c % 64 ≤ 191 := ⟨by omega, by omega⟩
      rw [e]
      simp [utf8DecSM, hl, h4, List.cons.injEq]
      omega
    · by_cases hc3 : c < 65536
      · have e : utf8Char c ++ rest
            = (224 + c / 4096) :: (128 + (c / 64) % 64) :: (128 + c % 64) :: rest := by
          simp [utf8Char, hc1, hc2, hc3]
        have h6 : 128 ≤ 128 + c % 64 ∧ 128 + c % 64 ≤ 191 := ⟨by omega, by omega⟩
        rw [e]
        by_cases hE0 : c < 4096
        · have hl : utf8Lead (224 + c / 4096) = Sum.inr (224 + c / 4096 - 224, 2, 160, 191) := by
            unfold utf8Lead
            rw [if_neg (by omega), if_neg (by omega), if_neg (by omega), if_pos (by omega),
              if_pos (by omega), if_neg (by omega)]
          have h5 : 160 ≤ 128 + (c / 64) % 64 ∧ 128 + (c / 64) % 64 ≤ 191 := ⟨by omega, by omega⟩
          simp [utf8DecSM, hl, h5, h6, List.cons.injEq]
          omega
        · by_cases hED : 53248 ≤ c ∧ c < 57344
          · have hl : utf8Lead (224 + c / 4096)
                = Sum.inr (224 + c / 4096 - 224, 2, 128, 159) := by
              unfold utf8Lead
              rw [if_neg (by omega), if_neg (by omega), if_neg (by omega), if_pos (by omega),
                if_neg (by omega), if_pos (by omega)]
            have h5 : 128 ≤ 128 + (c / 64) % 64 ∧ 128 + (c / 64) % 64 ≤ 159 :=
              ⟨by omega, by omega⟩
            simp [utf8DecSM, hl, h5, h6, List.cons.injEq]
            omega
          · have hl : utf8Lead (224 + c / 4096)
                = Sum.inr (224 + c / 4096 - 224, 2, 128, 191) := by
              unfold utf8Lead
              rw [if_neg (by omega), if_neg (by omega), if_neg (by omega), if_pos (by omega),
                if_neg (by omega), if_neg (by omega)]
            have h5 : 128 ≤ 128 + (c / 64) % 64 ∧ 128 + (c / 64) % 64 ≤ 191 :=
              ⟨by omega, by omega⟩
            simp [utf8DecSM, hl, h5, h6, List.cons.injEq]
            omega
      · have e : utf8Char c ++ rest
            = (240 + c / 262144) :: (128 + (c / 4096) % 64) :: (128 + (c / 64) % 64)
              :: (128 + c % 64) :: rest := by
          simp [utf8Char, hc1, hc2, hc3]
        have h7 : 128 ≤ 128 + (c / 64) % 64 ∧ 128 + (c / 64) % 64 ≤ 191 := ⟨by omega, by omega⟩
        have h8 : 128 ≤ 128 + c % 64 ∧ 128 + c % 64 ≤ 191 := ⟨by omega, by omega⟩
        rw [e]
        by_cases hF0 : c < 262144
        · have hl : utf8Lead (240 + c / 262144)
              = Sum.inr (240 + c / 262144 - 240, 3, 144, 191) := by
            unfold utf8Lead
            rw [if_neg (by omega), if_neg (by omega), if_neg (by omega), if_neg (by omega),
              if_pos (by omega), if_pos (by omega), if_neg (by omega)]
          have h5 : 144 ≤ 128 + (c / 4096) % 64 ∧ 128 + (c / 4096) % 64 ≤ 191 :=
            ⟨by omega, by omega⟩
          simp [utf8DecSM, hl, h5, h7, h8, List.cons.injEq]
          omega
        · by_cases hF4 : 1048576 ≤ c
          · have hl : utf8Lead (240 + c / 262144)
                = Sum.inr (240 + c / 262144 - 240, 3, 128, 143) := by
              unfold utf8Lead
              rw [if_neg (by omega), if_neg (by omega), if_neg (by omega), if_neg (by omega),
                if_pos (by omega), if_neg (by omega), if_pos (by omega)]
            have h5 : 128 ≤ 128 + (c / 4096) % 64 ∧ 128 + (c / 4096) % 64 ≤ 143 :=
              ⟨by omega, by omega⟩
            simp [utf8DecSM, hl, h5, h7, h8, List.cons.injEq]
            omega
          · have hl : utf8Lead (240 + c / 262144)
                = Sum.inr (240 + c / 262144 - 240, 3, 128, 191) := by
              unfold utf8Lead
              rw [if_neg (by omega), if_neg (by omega), if_neg (by omega), if_neg (by omega),
                if_pos (by omega), if_neg (by omega), if_neg (by omega)]
            have h5 : 128 ≤ 128 + (c / 4096) % 64 ∧ 128 + (c / 4096) % 64 ≤ 191 :=
              ⟨by omega, by omega⟩
            simp [utf8DecSM, hl, h5, h7, h8, List.cons.injEq]
            omega

theorem utf8Dec_utf8Enc (s : UStr) (h : ∀ c ∈ s, ValidCP c) :
    utf8Dec (utf8Enc s) = s := by
  induction s with
  | nil => simp [utf8Enc, utf8Dec, utf8DecSM]
  | cons c t ih =>
    rw [utf8Enc_cons, utf8Dec_char c (h c (by simp)) (utf8Enc t),
      ih (fun x hx => h x (by simp [hx]))]

theorem utf16Enc_cons (c : Nat) (s : UStr) :
    utf16Enc (c :: s)
      = ((utf16Units c).map (fun u => [u % 256, u / 256])).flatten ++ utf16Enc s := by
  simp [utf16Enc]

theorem utf16Enc_len_even (s : UStr) : (utf16Enc s).length % 2 = 0 := by
  induction s with
  | nil => simp [utf16Enc]
  | cons a t ih =>
    rw [utf16Enc_cons]
    simp only [List.length_append]
    by_cases ha : a < 65536 <;> simp [utf16Units, ha] <;> omega

theorem utf16Dec_char (c : Nat) (hv : ValidCP c) (rest : List Nat) :
    utf16Dec (((utf16Units c).map (fun u => [u % 256, u / 256])).flatten ++ rest)
      = c :: utf16Dec rest := by
  obtain ⟨hlt, hsur⟩ := hv
  unfold utf16Dec
  by_cases hc : c < 65536
  · have e : ((utf16Units c).map (fun u => [u % 256, u / 256])).flatten ++ rest
        = (c % 256) :: (c / 256) :: rest := by
      simp [utf16Units, hc]
    have hu : c % 256 + 256 * (c / 256) = c := by omega
    rw [e]
    simp only [utf16DecSM, hu]
    rw [if_pos hsur]
  · have e : ((utf16Units c).map (fun u => [u % 256, u / 256])).flatten ++ rest
        = ((55296 + (c - 65536) / 1024) % 256) :: ((55296 + (c - 65536) / 1024) / 256)
          :: ((56320 + (c - 65536) % 1024) % 256) :: ((56320 + (c - 65536) % 1024) / 256)
          :: rest := by
      simp [utf16Units, hc]
    have hdiv : (c - 65536) / 1024 < 1024 := by omega
    have hu : (55296 + (c - 65536) / 1024) % 256
        + 256 * ((55296 + (c - 65536) / 1024) / 256) = 55296 + (c - 65536) / 1024 := by omega
    have hv2 : (56320 + (c - 65536) % 1024) % 256
        + 256 * ((56320 + (c - 65536) % 1024) / 256) = 56320 + (c - 65536) % 1024 := by omega
    have hI1 : ¬ (55296 + (c - 65536) / 1024 < 55296 ∨ 57343 < 55296 + (c - 65536) / 1024) := by
      omega
    have hI2 : 55296 + (c - 65536) / 1024 < 56320 := by omega
    have hI3 : 56320 ≤ 56320 + (c - 65536) % 1024 ∧ 56320 + (c - 65536) % 1024 < 57344 :=
      ⟨by omega, by omega⟩
    rw [e]
    simp only [utf16DecSM]
    rw [hu, hv2]
    rw [if_neg hI1, if_pos hI2, if_pos hI3]
    rw [show 65536 + 1024 * (55296 + (c - 65536) / 1024 - 55296)
        + (56320 + (c - 65536) % 1024 - 56320) = c from by omega]

theorem utf16Dec_utf16Enc (s : UStr) (h : ∀ c ∈ s, ValidCP c) :
    utf16Dec (utf16Enc s) = s := by
  induction s with
  | nil => simp [utf16Enc, utf16Dec, utf16DecSM]
  | cons c t ih =>
    rw [utf16Enc_cons, utf16Dec_char c (h c (by simp)) (utf16Enc t),
      ih (fun x hx => h x (by simp [hx]))]

/-! ### Substring search from an index (Python `bytes.find(sub, start)`) -/

def findSubFrom (s pat : List Nat) (start : Nat) : Option Nat :=
  (findSub (s.drop start) pat).map (· + start)

theorem findSub_bounds (s pat : List Nat) (i : Nat) (hp : pat ≠ [])
    (h : findSub s pat = some i) : i + pat.length ≤ s.length := by
  unfold findSub at h
  have hpre := List.find?_some h
  have hmem := List.mem_of_find?_eq_some h
  rw [List.mem_range] at hmem
  rw [List.isPrefixOf_iff_prefix] at hpre
  have hlen := hpre.length_le
  rw [List.length_drop] at hlen
  have hpl : 1 ≤ pat.length := by
    cases pat with
    | nil => exact absurd rfl hp
    | cons a t => simp
  omega

theorem findSubFrom_bounds (s pat : List Nat) (start i : Nat) (hp : pat ≠ [])
    (h : findSubFrom s pat start = some i) :
    start ≤ i ∧ i + pat.length ≤ s.length := by
  unfold findSubFrom at h
  cases hf : findSub (s.drop start) pat with
  | none => rw [hf] at h; simp at h
  | some j =>
    rw [hf] at h
    simp only [Option.map_some', Option.some.injEq] at h
    have hb := findSub_bounds _ _ _ hp hf
    rw [List.length_drop] at hb
    have hpl : 1 ≤ pat.length := by
      cases pat with
      | nil => exact absurd rfl hp
      | cons a t => simp
    omega

/-! ### Property extraction (`MoriaSaveParser._extract_string_property`,
`_extract_int_property`) -/

def PROP_WORLD_NAME : Bytes := strL "SG_WN"

def PROP_WORLD_GUID : Bytes := strL "SG_WGUID"

def PROP_WORLD_SEED : Bytes := strL "SG_WS"

def PROP_MAP_NAME : Bytes := strL "SG_MN"

/-- `MoriaSaveParser._extract_string_property`: find the property name, skip
it and its null terminator, check the type byte `0x06`, read the signed
32-bit length, and decode UTF-8 (positive length, byte count including a
1-byte terminator) or UTF-16-LE (negative length, character count including
a 2-byte terminator).  `none` models Python `None` (absent key, short read,
or non-string type byte). -/
def extract_string_property (data : Bytes) (property_name : Bytes) : Option UStr :=
  match findSub data property_name with
  | none => none
  | some p =>
    let pos := p + property_name.length + 1
    match data.get? pos with
    | none => none
    | some type_byte =>
      if type_byte = 6 then
        match readInt32 data (pos + 1) with
        | none => none
        | some str_len =>
          let pos2 := pos + 1 + 4
          if str_len < 0 then
            let char_count := str_len.natAbs
            let byte_count := char_count * 2
            some (utf16Dec (sliceClip data pos2 (byte_count - 2)))
          else
            some (utf8Dec (sliceClip data pos2 (str_len.toNat - 1)))
      else none

/-- `MoriaSaveParser._extract_int_property`: same scan, type byte `0x02`,
unsigned 32-bit little-endian payload. -/
def extract_int_property (data : Bytes) (property_name : Bytes) : Option Nat :=
  match findSub data property_name with
  | none => none
  | some p =>
    let pos := p + property_name.length + 1
    match data.get? pos with
    | none => none
    | some type_byte =>
      if type_byte = 2 then readUInt32 data (pos + 1)
      else none

/-! ### Container decoding (`MoriaSaveParser._decompress_first_csdc`,
`_extract_character_name`) -/

/-- `zlib.decompress` modelled abstractly: an inflation attempt on the byte
suffix handed to it, `none` for `zlib.error`. -/
def Inflate := Bytes → Option Bytes

/-- The candidate offsets, in the order the source tries them
(`for offset_add in [60, 24, 36, 48, 52, 56, 64]`). -/
def csdcOffsets : List Nat := [60, 24, 36, 48, 52, 56, 64]

/-- The offset-probing loop of `_decompress_first_csdc`: inflate at each
candidate offset in turn, accepting the first result that is longer than 10
bytes and contains `b"SG_"`. -/
def tryOffsets (inflate : Inflate) (data : Bytes) (csdc_pos : Nat) : List Nat → Option Bytes
  | [] => none
  | off :: rest =>
    match inflate (data.drop (csdc_pos + off)) with
    | some d =>
      if 10 < d.length ∧ containsSub d (strL "SG_") = true then some d
      else tryOffsets inflate data csdc_pos rest
    | none => tryOffsets inflate data csdc_pos rest

/-- `MoriaSaveParser._decompress_first_csdc`. -/
def decompress_first_csdc (inflate : Inflate) (data : Bytes) : Option Bytes :=
  match findSub data (strL "CSDC") with
  | none => none
  | some p => tryOffsets inflate data p csdcOffsets

/-- The name read of `_extract_character_name` once the SDCP block is found
(length at offset 29, string at offset 33, sign-encoded width, lengths of
magnitude above 100 rejected). -/
def extractNameAt (d : Bytes) : Option UStr :=
  match readInt32 d 29 with
  | none => none
  | some name_len =>
    if 0 < name_len then
      if 100 < name_len then none
      else some (utf8Dec (sliceClip d 33 (name_len.toNat - 1)))
    else if name_len < 0 then
      let char_count := name_len.natAbs
      if 100 < char_count then none
      else some (utf16Dec (sliceClip d 33 (char_count * 2 - 2)))
    else none

/-- The CSDC-scanning loop of `_extract_character_name`: find each CSDC
marker from `pos`, inflate at the fixed offset 60, and when the result is at
least 40 bytes with `b"SDCP"` at offset 4, read the name there.  The loop
advances by at least 4 bytes per iteration and each marker position is
inside the buffer, so `data.length + 1` units of fuel always cover every
iteration of the source's `while True` loop. -/
def csdcNameLoopF (inflate : Inflate) (data : Bytes) : Nat → Nat → Option UStr
  | 0, _ => none
  | fuel + 1, pos =>
    match findSubFrom data (strL "CSDC") pos with
    | none => none
    | some csdc_pos =>
      match inflate (data.drop (csdc_pos + 60)) with
      | none => csdcNameLoopF inflate data fuel (csdc_pos + 4)
      | some decompressed =>
        if 40 ≤ decompressed.length ∧ sliceClip decompressed 4 4 = strL "SDCP" then
          extractNameAt decompressed
        else csdcNameLoopF inflate data fuel (csdc_pos + 4)

/-- `MoriaSaveParser._extract_character_name`. -/
def extract_character_name (inflate : Inflate) (data : Bytes) : Option UStr :=
  csdcNameLoopF inflate data (data.length + 1) 0

/-! ### Data model (`SaveFileVersion`, `WorldSaveInfo`, `WorldWithVersions`,
`CharacterSaveInfo`, `CharacterWithVersions`) -/

/-- One directory entry handed to the scanner: file name, raw content,
`st_mtime` and `st_size` (`stat` is modelled as always succeeding). -/
structure MFile where
  name : UStr
  content : Bytes
  mtime : Nat
  size : Nat
deriving DecidableEq

/-- The `version_type` strings `"main" | "fresh" | "backup" | "bad"`. -/
inductive VType where
  | main
  | fresh
  | backup
  | bad
deriving DecidableEq

structure SaveFileVersion where
  file_path : UStr
  version_type : VType
  backup_number : Option Nat := none
  modified_time : Option Nat := none
  file_size : Nat := 0
deriving DecidableEq

structure WorldSaveInfo where
  file_path : UStr
  world_name : UStr
  world_guid : UStr
  map_name : UStr
  world_seed : Option Nat := none
  modified_time : Option Nat := none
deriving DecidableEq

/-- `WorldSaveInfo.base_name`: everything before the first `.` of the file
name (`name.split('.')[0]`). -/
def WorldSaveInfo.base_name (w : WorldSaveInfo) : UStr :=
  w.file_path.takeWhile (fun c => c != 46)

structure WorldWithVersions where
  info : WorldSaveInfo
  versions : List SaveFileVersion := []
deriving DecidableEq

def WorldWithVersions.world_name (w : WorldWithVersions) : UStr := w.info.world_name

def WorldWithVersions.base_name (w : WorldWithVersions) : UStr := w.info.base_name

/-- `WorldWithVersions.main_file`: the first version with type `"main"`. -/
def WorldWithVersions.main_file (w : WorldWithVersions) : Option SaveFileVersion :=
  w.versions.find? (fun v => decide (v.version_type = VType.main))

/-- `WorldWithVersions.fresh_file`: the first version with type `"fresh"`. -/
def WorldWithVersions.fresh_file (w : WorldWithVersions) : Option SaveFileVersion :=
  w.versions.find? (fun v => decide (v.version_type = VType.fresh))

/-- `WorldWithVersions.backup_files`: the `"backup"` versions sorted by
`backup_number or 0` (Python stable sort, modelled by insertion sort). -/
def WorldWithVersions.backup_files (w : WorldWithVersions) : List SaveFileVersion :=
  List.insertionSort (fun v1 v2 => v1.backup_number.getD 0 ≤ v2.backup_number.getD 0)
    (w.versions.filter (fun v => decide (v.version_type = VType.backup)))

structure CharacterSaveInfo where
  file_path : UStr
  character_name : Option UStr := none
  modified_time : Option Nat := none
deriving DecidableEq

def CharacterSaveInfo.base_name (c : CharacterSaveInfo) : UStr :=
  c.file_path.takeWhile (fun ch => ch != 46)

/-- Python truthiness of `x or y` for an optional string: `None` and `""`
both fall through to the fallback. -/
def pyOrStr (o : Option UStr) (d : UStr) : UStr :=
  match o with
  | some s => if s = [] then d else s
  | none => d

/-- `CharacterSaveInfo.display_name`: `character_name or base_name`. -/
def CharacterSaveInfo.display_name (c : CharacterSaveInfo) : UStr :=
  pyOrStr c.character_name c.base_name

structure CharacterWithVersions where
  info : CharacterSaveInfo
  versions : List SaveFileVersion := []
deriving DecidableEq

def CharacterWithVersions.display_name (c : CharacterWithVersions) : UStr :=
  c.info.display_name

def CharacterWithVersions.base_name (c : CharacterWithVersions) : UStr := c.info.base_name

def CharacterWithVersions.main_file (c : CharacterWithVersions) : Option SaveFileVersion :=
  c.versions.find? (fun v => decide (v.version_type = VType.main))

def CharacterWithVersions.fresh_file (c : CharacterWithVersions) : Option SaveFileVersion :=
  c.versions.find? (fun v => decide (v.version_type = VType.fresh))

def CharacterWithVersions.backup_files (c : CharacterWithVersions) : List SaveFileVersion :=
  List.insertionSort (fun v1 v2 => v1.backup_number.getD 0 ≤ v2.backup_number.getD 0)
    (c.versions.filter (fun v => decide (v.version_type = VType.backup)))

/-! ### Entity parsers (`parse_world_save`, `parse_character_save`) -/

/-- `MoriaSaveParser.parse_world_save`: GVAS signature check, first-CSDC
decompression, property extraction with defaults
(`world_name or "Unknown World"`, `world_guid or ""`, `map_name or ""`). -/
def parse_world_save (inflate : Inflate) (f : MFile) : Option WorldSaveInfo :=
  if (strL "GVAS").isPrefixOf f.content then
    match decompress_first_csdc inflate f.content with
    | none => none
    | some decompressed =>
      some { file_path := f.name
             world_name := pyOrStr (extract_string_property decompressed PROP_WORLD_NAME)
               (strL "Unknown World")
             world_guid := pyOrStr (extract_string_property decompressed PROP_WORLD_GUID) []
             map_name := pyOrStr (extract_string_property decompressed PROP_MAP_NAME) []
             world_seed := extract_int_property decompressed PROP_WORLD_SEED
             modified_time := some f.mtime }
  else none

/-- `MoriaSaveParser.parse_character_save`: GVAS signature check; the
character name may be absent without making the parse fail. -/
def parse_character_save (inflate : Inflate) (f : MFile) : Option CharacterSaveInfo :=
  if (strL "GVAS").isPrefixOf f.content then
    some { file_path := f.name
           character_name := extract_character_name inflate f.content
           modified_time := some f.mtime }
  else none

/-! ### File classification

The aggregator loop classifies each `MW_`/`MC_`-prefixed filename with, in
order: the main-save test `filename.endswith(".sav") and ".sav." not in
filename`, then the regexes `^(PFX[A-F0-9]+)\.sav\.fresh$`,
`^(PFX[A-F0-9]+)\.(\d{2})\.bak$`, `^(PFX[A-F0-9]+)\.sav\.(\d{2})\.bad$`, all
with `re.IGNORECASE`.  The regexes are modelled over ASCII: `[A-F0-9]` with
IGNORECASE is `0-9 A-F a-f`, the literal letters match either case, and
`\d` is modelled as the ASCII digits. -/

/-- ASCII lower-casing of one scalar. -/
def asciiLower (c : Nat) : Nat := if 65 ≤ c ∧ c ≤ 90 then c + 32 else c

def lowerL (s : UStr) : UStr := s.map asciiLower

def isDigitB (c : Nat) : Bool := 48 ≤ c && c ≤ 57

/-- `[A-F0-9]` under `re.IGNORECASE`. -/
def isHexCI (c : Nat) : Bool :=
  (48 ≤ c && c ≤ 57) || (65 ≤ c && c ≤ 70) || (97 ≤ c && c ≤ 102)

/-- `^(PFX[A-F0-9]+)\.sav\.fresh$` (IGNORECASE), for a name that already
carries the exact prefix; returns the group-1 base identity. -/
def matchFresh (pfx name : UStr) : Option UStr :=
  let rest := name.drop pfx.length
  let id := rest.takeWhile isHexCI
  let tail := rest.drop id.length
  if id ≠ [] ∧ lowerL tail = strL ".sav.fresh" then some (pfx ++ id) else none

/-- `^(PFX[A-F0-9]+)\.(\d{2})\.bak$` (IGNORECASE): base identity and the
numeric value `int(group(2))`.  The tail must lower-case to `"." d1 d2 ".bak"`
with `d1 d2` ASCII digits (digits are fixed by lower-casing, so this keeps
the regex shape). -/
def matchBak (pfx name : UStr) : Option (UStr × Nat) :=
  let rest := name.drop pfx.length
  let id := rest.takeWhile isHexCI
  let tail := rest.drop id.length
  match tail.get? 1, tail.get? 2 with
  | some d1, some d2 =>
    if id ≠ [] ∧ isDigitB d1 = true ∧ isDigitB d2 = true
        ∧ lowerL tail = 46 :: d1 :: d2 :: 46 :: strL "bak" then
      some (pfx ++ id, 10 * (d1 - 48) + (d2 - 48))
    else none
  | _, _ => none

/-- `^(PFX[A-F0-9]+)\.sav\.(\d{2})\.bad$` (IGNORECASE), same shape. -/
def matchBad (pfx name : UStr) : Option (UStr × Nat) :=
  let rest := name.drop pfx.length
  let id := rest.takeWhile isHexCI
  let tail := rest.drop id.length
  match tail.get? 5, tail.get? 6 with
  | some d1, some d2 =>
    if id ≠ [] ∧ isDigitB d1 = true ∧ isDigitB d2 = true
        ∧ lowerL tail = 46 :: 115 :: 97 :: 118 :: 46 :: d1 :: d2 :: 46 :: strL "bad" then
      some (pfx ++ id, 10 * (d1 - 48) + (d2 - 48))
    else none
  | _, _ => none

/-- The per-file dispatch of the aggregator loop: `startswith(PFX)` filter
(case-sensitive), then the main / fresh / backup / bad tests in source
order.  Returns the base identity, role and ordinal, or `none` for an entry
the loop ignores. -/
def classifyFile (pfx name : UStr) : Option (UStr × VType × Option Nat) :=
  if pfx.isPrefixOf name then
    if (strL ".sav").isSuffixOf name ∧ containsSub name (strL ".sav.") = false then
      some (name.take (name.length - 4), VType.main, none)
    else
      match matchFresh pfx name with
      | some base => some (base, VType.fresh, none)
      | none =>
        match matchBak pfx name with
        | some (base, n) => some (base, VType.backup, some n)
        | none =>
          match matchBad pfx name with
          | some (base, n) => some (base, VType.bad, some n)
          | none => none
  else none

/-- `save_directory.glob("MW_*.sav")` membership for one file name. -/
def globSav (pfx name : UStr) : Bool :=
  pfx.isPrefixOf name && (strL ".sav").isSuffixOf name

/-- `Path(name).suffixes` membership of `".bak"`: the name split on `.` has
a `bak` segment after the first. -/
def splitOnDot : UStr → List UStr
  | [] => [[]]
  | c :: cs =>
    match splitOnDot cs with
    | [] => [[]]
    | seg :: rest => if c = 46 then [] :: seg :: rest else (c :: seg) :: rest

def suffixesHasBak (name : UStr) : Bool :=
  ((splitOnDot name).tail).any (fun seg => seg == strL "bak")

/-! ### Version aggregation (`get_world_saves`, `get_worlds_with_versions`,
`get_character_saves`, `get_characters_with_versions`)

A scanned directory is `Option (List MFile)`: `none` when
`save_directory.exists()` is false.  Python 3.7+ `dict` keeps insertion
order; it is modelled by an association list in insertion order where
assigning an existing key keeps its position. -/

/-- `k in d` for the association-list model of a `dict`. -/
def alMem (k : UStr) (m : List (UStr × β)) : Bool := m.any (fun p => p.1 == k)

/-- `d[k] = v`: replace in place, or append a new key. -/
def alUpsert (k : UStr) (v : β) (m : List (UStr × β)) : List (UStr × β) :=
  if alMem k m then m.map (fun p => if p.1 = k then (k, v) else p) else m ++ [(k, v)]

/-- The `SaveFileVersion` built in the scan loop for file `f`. -/
def mkVer (f : MFile) (t : VType) (num : Option Nat) : SaveFileVersion :=
  { file_path := f.name, version_type := t, backup_number := num
    modified_time := some f.mtime, file_size := f.size }

/-- `world_map[base].versions.append(v)`. -/
def wAttach (base : UStr) (v : SaveFileVersion) (m : List (UStr × WorldWithVersions)) :
    List (UStr × WorldWithVersions) :=
  m.map (fun p => if p.1 = base then (p.1, { p.2 with versions := p.2.versions ++ [v] }) else p)

/-- One buffered orphan entry `(path, type, num)`. -/
abbrev OrphEntry := MFile × VType × Option Nat

/-- `orphan_files.setdefault(base, []).append(entry)` (what the
`if base not in orphan_files: ... append` idiom amounts to). -/
def orphAdd (base : UStr) (e : OrphEntry) (orph : List (UStr × List OrphEntry)) :
    List (UStr × List OrphEntry) :=
  if alMem base orph then orph.map (fun p => if p.1 = base then (p.1, p.2 ++ [e]) else p)
  else orph ++ [(base, [e])]

/-- `MoriaSaveParser.get_world_saves`: glob `MW_*.sav`, skip names with a
`.bak` suffix segment, parse each, and sort by modification time newest
first (Python stable sort, modelled by a stable insertion sort). -/
def get_world_saves (inflate : Inflate) (files : List MFile) : List WorldSaveInfo :=
  List.insertionSort (fun w1 w2 => w2.modified_time.getD 0 ≤ w1.modified_time.getD 0)
    (files.filterMap (fun f =>
      if globSav (strL "MW_") f.name && !(suffixesHasBak f.name) then
        parse_world_save inflate f
      else none))

/-- The body of the `for file_path in save_directory.iterdir()` loop of
`get_worlds_with_versions`: attach a version to its entity, or buffer an
orphan; a main file whose base is not in the map is ignored. -/
def worldScanStep (st : List (UStr × WorldWithVersions) × List (UStr × List OrphEntry))
    (f : MFile) : List (UStr × WorldWithVersions) × List (UStr × List OrphEntry) :=
  match classifyFile (strL "MW_") f.name with
  | none => st
  | some (base, VType.main, _) =>
    if alMem base st.1 then (wAttach base (mkVer f VType.main none) st.1, st.2) else st
  | some (base, t, num) =>
    if alMem base st.1 then (wAttach base (mkVer f t num) st.1, st.2)
    else (st.1, orphAdd base (f, t, num) st.2)

/-- The preference ranking of the orphan-recovery sort key
`{"fresh": 0, "backup": 1, "bad": 2}.get(type, 3)`. -/
def typeRank : VType → Nat
  | VType.fresh => 0
  | VType.backup => 1
  | VType.bad => 2
  | VType.main => 3

/-- `sorted(files, key=lambda x: {"fresh": 0, "backup": 1, "bad": 2}.get(x[1], 3))`:
the stable sort by role rank used before orphan-recovery parsing (Python
`sorted` is stable; entries of equal rank keep their buffered order). -/
def orphanSorted (files : List OrphEntry) : List OrphEntry :=
  List.insertionSort (fun a b => typeRank a.2.1 ≤ typeRank b.2.1) files

/-- The orphan-recovery parse loop for worlds: first file (in the sorted
order handed in) that parses with a truthy `world_name` gives
`(world_name, best_file)`. -/
def findWorldName (inflate : Inflate) : List OrphEntry → Option (UStr × UStr)
  | [] => none
  | (f, _, _) :: rest =>
    match parse_world_save inflate f with
    | some parsed =>
      if parsed.world_name ≠ [] then some (parsed.world_name, f.name)
      else findWorldName inflate rest
    | none => findWorldName inflate rest

/-- String `replace` helper (`base_name.replace("MW_", "")`); the pattern is
nonempty in every use, so each step consumes at least one character and
`s.length` units of fuel always suffice. -/
def replAuxF (pat rep : UStr) : Nat → UStr → UStr
  | 0, s => s
  | _, [] => []
  | fuel + 1, c :: cs =>
    if pat.isPrefixOf (c :: cs) then rep ++ replAuxF pat rep fuel ((c :: cs).drop pat.length)
    else c :: replAuxF pat rep fuel cs

def replaceAll (s pat rep : UStr) : UStr :=
  if pat = [] then s else replAuxF pat rep s.length s

/-- The synthesized orphan entity of `get_worlds_with_versions`
(lines building `WorldSaveInfo(...)` for an orphan group and attaching all
buffered files as versions). -/
def mkOrphanWorld (inflate : Inflate) (base : UStr) (files : List OrphEntry) :
    WorldWithVersions :=
  let sortedFiles := orphanSorted files
  let pick := findWorldName inflate sortedFiles
  let world_name := match pick with | some (w, _) => w | none => base
  let best_file : Option UStr := pick.map (fun p => p.2)
  let first_file := (files.head?.map (fun e => e.1)).getD { name := [], content := [], mtime := 0, size := 0 }
  { info := { file_path := best_file.getD first_file.name
              world_name := world_name
              world_guid := replaceAll base (strL "MW_") []
              map_name := []
              world_seed := none
              modified_time := some first_file.mtime }
    versions := files.map (fun e => mkVer e.1 e.2.1 e.2.2) }

/-- The orphan-processing loop of `get_worlds_with_versions`. -/
def processWorldOrphans (inflate : Inflate) (m : List (UStr × WorldWithVersions)) :
    List (UStr × List OrphEntry) → List (UStr × WorldWithVersions)
  | [] => m
  | (base, files) :: rest =>
    if alMem base m then processWorldOrphans inflate m rest
    else processWorldOrphans inflate (m ++ [(base, mkOrphanWorld inflate base files)]) rest

/-- `MoriaSaveParser.get_worlds_with_versions`. -/
def get_worlds_with_versions (inflate : Inflate) (dir : Option (List MFile)) :
    List WorldWithVersions :=
  match dir with
  | none => []
  | some files =>
    let worlds := get_world_saves inflate files
    let map0 := worlds.foldl (fun m w => alUpsert w.base_name { info := w, versions := [] } m) []
    let st := files.foldl worldScanStep (map0, [])
    let m2 := processWorldOrphans inflate st.1 st.2
    List.insertionSort (fun w1 w2 => w2.info.modified_time.getD 0 ≤ w1.info.modified_time.getD 0)
      (m2.map (fun p => p.2))

/-- `MoriaSaveParser.get_character_saves`. -/
def get_character_saves (inflate : Inflate) (files : List MFile) : List CharacterSaveInfo :=
  List.insertionSort (fun c1 c2 => c2.modified_time.getD 0 ≤ c1.modified_time.getD 0)
    (files.filterMap (fun f =>
      if globSav (strL "MC_") f.name && !(suffixesHasBak f.name) then
        parse_character_save inflate f
      else none))

/-- `cmap[base].versions.append(v)`. -/
def cAttach (base : UStr) (v : SaveFileVersion) (m : List (UStr × CharacterWithVersions)) :
    List (UStr × CharacterWithVersions) :=
  m.map (fun p => if p.1 = base then (p.1, { p.2 with versions := p.2.versions ++ [v] }) else p)

/-- Scan-loop body of `get_characters_with_versions`. -/
def charScanStep (st : List (UStr × CharacterWithVersions) × List (UStr × List OrphEntry))
    (f : MFile) : List (UStr × CharacterWithVersions) × List (UStr × List OrphEntry) :=
  match classifyFile (strL "MC_") f.name with
  | none => st
  | some (base, VType.main, _) =>
    if alMem base st.1 then (cAttach base (mkVer f VType.main none) st.1, st.2) else st
  | some (base, t, num) =>
    if alMem base st.1 then (cAttach base (mkVer f t num) st.1, st.2)
    else (st.1, orphAdd base (f, t, num) st.2)

/-- Orphan-recovery parse loop for characters: the candidate must parse
*and* carry a truthy (non-`None`, nonempty) `character_name`. -/
def findCharName (inflate : Inflate) : List OrphEntry → Option (UStr × UStr)
  | [] => none
  | (f, _, _) :: rest =>
    match parse_character_save inflate f with
    | some parsed =>
      match parsed.character_name with
      | some s => if s ≠ [] then some (s, f.name) else findCharName inflate rest
      | none => findCharName inflate rest
    | none => findCharName inflate rest

/-- The synthesized orphan entity of `get_characters_with_versions`. -/
def mkOrphanChar (inflate : Inflate) (base : UStr) (files : List OrphEntry) :
    CharacterWithVersions :=
  let sortedFiles := orphanSorted files
  let pick := findCharName inflate sortedFiles
  let char_name := match pick with | some (w, _) => w | none => base
  let best_file : Option UStr := pick.map (fun p => p.2)
  let first_file := (files.head?.map (fun e => e.1)).getD { name := [], content := [], mtime := 0, size := 0 }
  { info := { file_path := best_file.getD first_file.name
              character_name := some char_name
              modified_time := some first_file.mtime }
    versions := files.map (fun e => mkVer e.1 e.2.1 e.2.2) }

/-- Orphan-processing loop of `get_characters_with_versions`. -/
def processCharOrphans (inflate : Inflate) (m : List (UStr × CharacterWithVersions)) :
    List (UStr × List OrphEntry) → List (UStr × CharacterWithVersions)
  | [] => m
  | (base, files) :: rest =>
    if alMem base m then processCharOrphans inflate m rest
    else processCharOrphans inflate (m ++ [(base, mkOrphanChar inflate base files)]) rest

/-- `MoriaSaveParser.get_characters_with_versions`. -/
def get_characters_with_versions (inflate : Inflate) (dir : Option (List MFile)) :
    List CharacterWithVersions :=
  match dir with
  | none => []
  | some files =>
    let chars := get_character_saves inflate files
    let map0 := chars.foldl (fun m c => alUpsert c.base_name { info := c, versions := [] } m) []
    let st := files.foldl charScanStep (map0, [])
    let m2 := processCharOrphans inflate st.1 st.2
    List.insertionSort (fun c1 c2 => c2.info.modified_time.getD 0 ≤ c1.info.modified_time.getD 0)
      (m2.map (fun p => p.2))

/-! ### C2: sign-encoded string round-trip through
`_extract_string_property` -/

theorem findSub_append_self (key rest : List Nat) :
    findSub (key ++ rest) key = some 0 := by
  unfold findSub
  rw [List.range_succ_eq_map]
  apply List.find?_cons_of_pos
  simp only [List.drop_zero]
  rw [List.isPrefixOf_iff_prefix]
  exact List.prefix_append key rest

theorem encInt32_length (z : Int) : (encInt32 z).length = 4 := rfl

theorem pairFlatten_length (us : List Nat) :
    ((us.map (fun u => [u % 256, u / 256])).flatten).length = 2 * us.length := by
  induction us with
  | nil => simp
  | cons a t ih => simp [ih]; omega

theorem utf16Enc_length (s : UStr) : (utf16Enc s).length = 2 * utf16Len s := by
  unfold utf16Enc utf16Len
  exact pairFlatten_length _

/-- C2 — sign-encoded string round-trip: a buffer that stores a tagged
string field (type byte `0x06`) with positive little-endian length equal to
the UTF-8 byte count plus one, followed by the UTF-8 bytes and a 1-byte
terminator, decodes back to the original string; a buffer that instead uses
the negative length `-(character count + 1)` (UTF-16 code units) followed by
the UTF-16-LE bytes and a 2-byte terminator decodes back to it as well.
Exactly one terminator is stripped in each case. -/
theorem c2_sign_encoded_round_trip (key : Bytes) (s : UStr)
    (hval : ∀ c ∈ s, ValidCP c)
    (h8 : ((utf8Enc s).length : Int) + 1 < 2147483648)
    (h16 : ((utf16Len s : Int)) + 1 < 2147483648) :
    extract_string_property
        (key ++ [0, 6] ++ encInt32 (((utf8Enc s).length : Int) + 1) ++ utf8Enc s ++ [0]) key
      = some s
    ∧ extract_string_property
        (key ++ [0, 6] ++ encInt32 (-((utf16Len s : Int) + 1)) ++ utf16Enc s ++ [0, 0]) key
      = some s := by
  constructor
  · set L : Int := ((utf8Enc s).length : Int) + 1 with hL
    set B := key ++ [0, 6] ++ encInt32 L ++ utf8Enc s ++ [0] with hB
    have e1 : findSub B key = some 0 := by
      rw [hB, show key ++ [0, 6] ++ encInt32 L ++ utf8Enc s ++ [0]
          = key ++ ([0, 6] ++ (encInt32 L ++ (utf8Enc s ++ [0]))) from by simp]
      exact findSub_append_self _ _
    have e2 : B.get? (0 + key.length + 1) = some 6 := by
      rw [hB, show key ++ [0, 6] ++ encInt32 L ++ utf8Enc s ++ [0]
          = key ++ (0 :: 6 :: (encInt32 L ++ (utf8Enc s ++ [0]))) from by simp]
      rw [show 0 + key.length + 1 = key.length + 1 from by omega]
      rw [get?_append_len key _ 1]
      rfl
    have e3 : readInt32 B (0 + key.length + 1 + 1) = some L := by
      rw [hB, show key ++ [0, 6] ++ encInt32 L ++ utf8Enc s ++ [0]
          = (key ++ [0, 6]) ++ (encInt32 L ++ (utf8Enc s ++ [0])) from by simp]
      rw [show 0 + key.length + 1 + 1 = (key ++ [0, 6]).length from by simp]
      exact readInt32_encInt32 _ _ _ (by omega) (by omega)
    have e4 : sliceClip B (0 + key.length + 1 + 1 + 4) (L.toNat - 1) = utf8Enc s := by
      rw [hB, show key ++ [0, 6] ++ encInt32 L ++ utf8Enc s ++ [0]
          = (key ++ [0, 6] ++ encInt32 L) ++ (utf8Enc s ++ [0]) from by simp]
      unfold sliceClip
      rw [show 0 + key.length + 1 + 1 + 4 = (key ++ [0, 6] ++ encInt32 L).length from by
        simp [encInt32_length]]
      rw [List.drop_left]
      rw [show L.toNat - 1 = (utf8Enc s).length from by omega]
      exact List.take_left _ _
    have hneg : ¬ (L < 0) := by omega
    unfold extract_string_property
    rw [e1]
    simp only [e2, e3]
    rw [if_pos trivial, if_neg hneg, e4, utf8Dec_utf8Enc s hval]
  · set L : Int := -((utf16Len s : Int) + 1) with hL
    set B := key ++ [0, 6] ++ encInt32 L ++ utf16Enc s ++ [0, 0] with hB
    have e1 : findSub B key = some 0 := by
      rw [hB, show key ++ [0, 6] ++ encInt32 L ++ utf16Enc s ++ [0, 0]
          = key ++ ([0, 6] ++ (encInt32 L ++ (utf16Enc s ++ [0, 0]))) from by simp]
      exact findSub_append_self _ _
    have e2 : B.get? (0 + key.length + 1) = some 6 := by
      rw [hB, show key ++ [0, 6] ++ encInt32 L ++ utf16Enc s ++ [0, 0]
          = key ++ (0 :: 6 :: (encInt32 L ++ (utf16Enc s ++ [0, 0]))) from by simp]
      rw [show 0 + key.length + 1 = key.length + 1 from by omega]
      rw [get?_append_len key _ 1]
      rfl
    have e3 : readInt32 B (0 + key.length + 1 + 1) = some L := by
      rw [hB, show key ++ [0, 6] ++ encInt32 L ++ utf16Enc s ++ [0, 0]
          = (key ++ [0, 6]) ++ (encInt32 L ++ (utf16Enc s ++ [0, 0])) from by simp]
      rw [show 0 + key.length + 1 + 1 = (key ++ [0, 6]).length from by simp]
      exact readInt32_encInt32 _ _ _ (by omega) (by omega)
    have e4 : sliceClip B (0 + key.length + 1 + 1 + 4) (L.natAbs * 2 - 2) = utf16Enc s := by
      rw [hB, show key ++ [0, 6] ++ encInt32 L ++ utf16Enc s ++ [0, 0]
          = (key ++ [0, 6] ++ encInt32 L) ++ (utf16Enc s ++ [0, 0]) from by simp]
      unfold sliceClip
      rw [show 0 + key.length + 1 + 1 + 4 = (key ++ [0, 6] ++ encInt32 L).length from by
        simp [encInt32_length]]
      rw [List.drop_left]
      rw [show L.natAbs * 2 - 2 = (utf16Enc s).length from by
        rw [utf16Enc_length]
        omega]
      exact List.take_left _ _
    have hneg : L < 0 := by omega
    unfold extract_string_property
    rw [e1]
    simp only [e2, e3]
    rw [if_pos trivial, if_pos hneg, e4, utf16Dec_utf16Enc s hval]

/-- Witness for C2 at a concrete string with ASCII, two-byte and
astral-plane characters. -/
theorem c2_round_trip_witness :
    (∀ c ∈ strL "aé𝄞", ValidCP c)
    ∧ extract_string_property (PROP_WORLD_NAME ++ [0, 6]
        ++ encInt32 (((utf8Enc (strL "aé𝄞")).length : Int) + 1)
        ++ utf8Enc (strL "aé𝄞") ++ [0]) PROP_WORLD_NAME = some (strL "aé𝄞")
    ∧ extract_string_property (PROP_WORLD_NAME ++ [0, 6]
        ++ encInt32 (-((utf16Len (strL "aé𝄞") : Int) + 1))
        ++ utf16Enc (strL "aé𝄞") ++ [0, 0]) PROP_WORLD_NAME = some (strL "aé𝄞") :=
  ⟨by decide,
    (c2_sign_encoded_round_trip PROP_WORLD_NAME (strL "aé𝄞")
      (by decide) (by decide) (by decide)).1,
    (c2_sign_encoded_round_trip PROP_WORLD_NAME (strL "aé𝄞")
      (by decide) (by decide) (by decide)).2⟩

/-! ### C4: the >100 length guard -/

/-- A buffer whose `SG_WN` field declares string length 102 (101 content
bytes, above the claimed guard threshold). -/
def c4buf : Bytes := strL "SG_WN" ++ [0, 6] ++ encInt32 102 ++ List.replicate 101 97 ++ [0]

/-- C4 counterexample — the name-keyed world string extractor has no
magnitude guard: with a declared length of 102 (101 bytes of content, more
than 100) it decodes and returns the 101-character string instead of
not-present. -/
theorem c4_counterexample_no_world_guard :
    extract_string_property c4buf PROP_WORLD_NAME = some (List.replicate 101 97) := by
  decide

/-- C4 amended — the corruption guard exists only on the fixed-offset
character-name path: whenever the signed length read at offset 29 has
magnitude above 100, the SDCP name read returns not-present. -/
theorem c4_char_name_guard (d : Bytes) (n : Int)
    (hread : readInt32 d 29 = some n) (habs : 100 < n.natAbs) :
    extractNameAt d = none := by
  simp only [extractNameAt, hread]
  by_cases hpos : 0 < n
  · rw [if_pos hpos, if_pos (by omega)]
  · rw [if_neg hpos, if_pos (by omega), if_pos (by omega)]

/-- Witness for the amended C4 at a concrete 40-byte block declaring
length 101. -/
def c4charbuf : Bytes := List.replicate 29 0 ++ encInt32 101 ++ List.replicate 7 0

theorem c4_char_name_guard_witness :
    readInt32 c4charbuf 29 = some 101 ∧ (100 : Int).natAbs < (101 : Int).natAbs
    ∧ extractNameAt c4charbuf = none :=
  ⟨by decide, by decide, c4_char_name_guard c4charbuf 101 (by decide) (by decide)⟩

/-! ### C3: decoder offset probing -/

/-- The offsets as the spec lists them, in ascending order. -/
def csdcOffsetsAscending : List Nat := [24, 36, 48, 52, 56, 60, 64]

/-- A decoder that follows the claim's words — the same probing loop but
with the candidate offsets in ascending order — for comparison with the
source's `_decompress_first_csdc`. -/
def decompress_first_csdc_ascending (inflate : Inflate) (data : Bytes) : Option Bytes :=
  match findSub data (strL "CSDC") with
  | none => none
  | some p => tryOffsets inflate data p csdcOffsetsAscending

/-- An inflation function under which every probed suffix inflates to
itself.  (Real zlib admits this situation too: a stored-block stream
starting at one offset can contain another complete stream starting at a
later offset, and trailing data after a stream end is ignored.) -/
def inflIdC3 : Inflate := fun bs => some bs

/-- Marker at 0; both offset 24 and offset 60 yield a result that passes
the length and `SG_` checks, and the two results differ. -/
def dataC3 : Bytes := strL "CSDC" ++ List.replicate 56 0 ++ strL "SG_" ++ List.replicate 8 0

/-- C3 counterexample — the source probes offset 60 first, not the offsets
in ascending order: on `dataC3` it accepts the inflation at offset 60 while
an ascending probe accepts the (different) inflation at offset 24. -/
theorem c3_counterexample_not_ascending :
    decompress_first_csdc inflIdC3 dataC3 = some (dataC3.drop 60)
    ∧ decompress_first_csdc_ascending inflIdC3 dataC3 = some (dataC3.drop 24)
    ∧ dataC3.drop 60 ≠ dataC3.drop 24 := by
  refine ⟨by decide, by decide, by decide⟩

theorem tryOffsets_eq_findSome (inflate : Inflate) (data : Bytes) (p : Nat)
    (offs : List Nat) :
    tryOffsets inflate data p offs
      = offs.findSome? (fun off =>
          match inflate (data.drop (p + off)) with
          | some d => if 10 < d.length ∧ containsSub d (strL "SG_") = true then some d else none
          | none => none) := by
  induction offs with
  | nil => rfl
  | cons off rest ih =>
    rw [List.findSome?_cons]
    unfold tryOffsets
    cases hinf : inflate (data.drop (p + off)) with
    | none => simpa using ih
    | some d =>
      by_cases hok : 10 < d.length ∧ containsSub d (strL "SG_") = true
      · simp [hok]
      · simpa [hok] using ih

theorem tryOffsets_sound (inflate : Inflate) (data : Bytes) (p : Nat)
    (offs : List Nat) (d : Bytes) (h : tryOffsets inflate data p offs = some d) :
    10 < d.length ∧ containsSub d (strL "SG_") = true := by
  induction offs with
  | nil => simp [tryOffsets] at h
  | cons off rest ih =>
    unfold tryOffsets at h
    cases hinf : inflate (data.drop (p + off)) with
    | none =>
      simp only [hinf] at h
      exact ih h
    | some d0 =>
      simp only [hinf] at h
      by_cases hok : 10 < d0.length ∧ containsSub d0 (strL "SG_") = true
      · rw [if_pos hok] at h
        cases h
        exact hok
      · rw [if_neg hok] at h
        exact ih h

/-- C3 amended — the decoder locates the first CSDC marker and probes the
fixed offset list in the source's order 60, 24, 36, 48, 52, 56, 64 (offset
60 first, the rest ascending), accepting the first inflation that succeeds,
is longer than 10 bytes, and contains the `SG_` marker substring; it
returns no-decodable-block when the marker is absent, and any accepted
block passes all three checks. -/
theorem c3_offset_probing :
    (∀ (inflate : Inflate) (data : Bytes), findSub data (strL "CSDC") = none →
      decompress_first_csdc inflate data = none)
    ∧ (∀ (inflate : Inflate) (data : Bytes) (p : Nat), findSub data (strL "CSDC") = some p →
      decompress_first_csdc inflate data
        = [60, 24, 36, 48, 52, 56, 64].findSome? (fun off =>
            match inflate (data.drop (p + off)) with
            | some d => if 10 < d.length ∧ containsSub d (strL "SG_") = true then some d else none
            | none => none))
    ∧ (∀ (inflate : Inflate) (data d : Bytes),
      decompress_first_csdc inflate data = some d →
      10 < d.length ∧ containsSub d (strL "SG_") = true) := by
  refine ⟨?_, ?_, ?_⟩
  · intro inflate data h
    unfold decompress_first_csdc
    rw [h]
  · intro inflate data p h
    unfold decompress_first_csdc
    rw [h]
    exact tryOffsets_eq_findSome inflate data p csdcOffsets
  · intro inflate data d h
    unfold decompress_first_csdc at h
    cases hf : findSub data (strL "CSDC") with
    | none => rw [hf] at h; cases h
    | some p =>
      rw [hf] at h
      exact tryOffsets_sound inflate data p csdcOffsets d h

/-- Witness for the amended C3 on the concrete buffer `dataC3`. -/
theorem c3_offset_probing_witness :
    findSub dataC3 (strL "CSDC") = some 0
    ∧ decompress_first_csdc inflIdC3 dataC3
        = [60, 24, 36, 48, 52, 56, 64].findSome? (fun off =>
            match inflIdC3 (dataC3.drop (0 + off)) with
            | some d => if 10 < d.length ∧ containsSub d (strL "SG_") = true then some d else none
            | none => none)
    ∧ (10 < (dataC3.drop 60).length ∧ containsSub (dataC3.drop 60) (strL "SG_") = true) :=
  ⟨by decide,
    c3_offset_probing.2.1 inflIdC3 dataC3 0 (by decide),
    c3_offset_probing.2.2 inflIdC3 dataC3 (dataC3.drop 60) (by decide)⟩

/-! ### C5: filename classification round-trip -/

/-- C5 counterexample — the recognizing regexes require a nonempty
hexadecimal `[A-F0-9]+` identity: a template filename synthesized with the
non-hex id `ZZ` is not classified at all, instead of being classified as
template with base `MW_ZZ`. -/
theorem c5_counterexample_nonhex_id :
    ¬ (classifyFile (strL "MW_") (strL "MW_ZZ.sav.fresh")
        = some (strL "MW_ZZ", VType.fresh, (none : Option Nat))) := by
  decide

theorem isPrefixOf_append_self (l r : List Nat) : l.isPrefixOf (l ++ r) = true := by
  rw [List.isPrefixOf_iff_prefix]
  exact List.prefix_append l r

theorem isSuffixOf_append_self (l r : List Nat) : r.isSuffixOf (l ++ r) = true := by
  rw [List.isSuffixOf_iff_suffix]
  exact List.suffix_append l r

theorem prefix_at_get (s pat : List Nat) (i j : Nat)
    (h : pat.isPrefixOf (s.drop i) = true) (hj : j < pat.length) :
    s.get? (i + j) = pat.get? j := by
  rw [List.isPrefixOf_iff_prefix] at h
  obtain ⟨t, ht⟩ := h
  rw [← List.get?_drop, ← ht, List.get?_append hj]

theorem takeWhile_append_all (p : Nat → Bool) (id t : List Nat)
    (h1 : ∀ c ∈ id, p c = true) (h2 : ∀ c0, t.head? = some c0 → p c0 = false) :
    (id ++ t).takeWhile p = id := by
  induction id with
  | nil =>
    cases t with
    | nil => rfl
    | cons c0 ts =>
      simp only [List.nil_append, List.takeWhile]
      rw [h2 c0 rfl]
  | cons a l ih =>
    have ha := h1 a (by simp)
    simp [List.takeWhile_cons, ha, ih (fun c hc => h1 c (by simp [hc]))]

/-- No occurrence of `".sav."` in `base ++ ".sav"` when `base` has no dot. -/
theorem containsSub_dotsav_false (base : UStr) (hb : ∀ c ∈ base, c ≠ 46) :
    containsSub (base ++ strL ".sav") (strL ".sav.") = false := by
  cases hc : containsSub (base ++ strL ".sav") (strL ".sav.") with
  | false => rfl
  | true =>
    exfalso
    unfold containsSub at hc
    cases hf : findSub (base ++ strL ".sav") (strL ".sav.") with
    | none => rw [hf] at hc; simp at hc
    | some i =>
      have hb5 := findSub_bounds _ _ _ (by decide) hf
      unfold findSub at hf
      have hpre := List.find?_some hf
      have hdot := prefix_at_get _ _ i 0 hpre (by decide)
      have hlen : (base ++ strL ".sav").length = base.length + 4 := by
        simp [strL]
      have hi : i < base.length := by
        simp only [hlen] at hb5
        have : (strL ".sav.").length = 5 := by decide
        omega
      rw [Nat.add_zero] at hdot
      rw [List.get?_append hi] at hdot
      have : (46 : Nat) ∈ base := by
        have := List.get?_mem hdot
        simpa [show (strL ".sav.").get? 0 = some 46 from rfl] using this
      exact hb 46 this rfl

theorem suffix_sav_getLast (name : UStr)
    (h : (strL ".sav").isSuffixOf name = true) : name.getLast? = some 118 := by
  rw [List.isSuffixOf_iff_suffix] at h
  obtain ⟨pre, hpre⟩ := h
  rw [← hpre, List.getLast?_append]
  rfl

theorem getLast_lowerL (t : UStr) (lit : UStr) (h : lowerL t = lit) :
    t.getLast?.map asciiLower = lit.getLast? := by
  rw [← h]
  unfold lowerL
  rw [List.getLast?_map]

/-- The main-save test fails when the name ends in a character that does not
lower-case to `v`. -/
theorem main_test_false (base t : UStr) (tl : Nat) (hlast : t.getLast? = some tl)
    (hlow : asciiLower tl ≠ 118)
    : ((strL ".sav").isSuffixOf (base ++ t) = true
        ∧ containsSub (base ++ t) (strL ".sav.") = false) → False := by
  rintro ⟨hs, -⟩
  have h1 := suffix_sav_getLast _ hs
  rw [List.getLast?_append] at h1
  rw [hlast] at h1
  have h2 : some tl = some 118 := h1
  cases h2
  exact hlow (by decide)

theorem asciiLower_digit (d : Nat) (hd : isDigitB d = true) : asciiLower d = d := by
  unfold isDigitB at hd
  simp only [Bool.and_eq_true, decide_eq_true_eq] at hd
  unfold asciiLower
  rw [if_neg (by omega)]

theorem asciiLower_eq_46 (c : Nat) (h : asciiLower c = 46) : c = 46 := by
  unfold asciiLower at h
  split at h <;> omega

theorem asciiLower_46 : asciiLower 46 = 46 := by decide

theorem isHexCI_ne_46 (c : Nat) (h : isHexCI c = true) : c ≠ 46 := by
  unfold isHexCI at h
  simp only [Bool.or_eq_true, Bool.and_eq_true, decide_eq_true_eq] at h
  omega

theorem pfx_no_dot (pfx : UStr) (hpfx : pfx = strL "MW_" ∨ pfx = strL "MC_") :
    ∀ c ∈ pfx, c ≠ 46 := by
  rcases hpfx with rfl | rfl
  · intro c hc
    rw [show strL "MW_" = [77, 87, 95] from by decide] at hc
    simp at hc
    omega
  · intro c hc
    rw [show strL "MC_" = [77, 67, 95] from by decide] at hc
    simp at hc
    omega

theorem classify_main_of_grammar (pfx id : UStr)
    (hpfx : pfx = strL "MW_" ∨ pfx = strL "MC_")
    (hhex : ∀ c ∈ id, isHexCI c = true) :
    classifyFile pfx (pfx ++ id ++ strL ".sav") = some (pfx ++ id, VType.main, none) := by
  have hb46 : ∀ c ∈ pfx ++ id, c ≠ 46 := by
    intro c hc
    rcases List.mem_append.mp hc with h | h
    · exact pfx_no_dot pfx hpfx c h
    · exact isHexCI_ne_46 c (hhex c h)
  unfold classifyFile
  rw [if_pos (by rw [List.append_assoc]; exact isPrefixOf_append_self _ _)]
  rw [if_pos ⟨isSuffixOf_append_self (pfx ++ id) (strL ".sav"),
    containsSub_dotsav_false (pfx ++ id) hb46⟩]
  have hlen : (pfx ++ id ++ strL ".sav").length - 4 = (pfx ++ id).length := by
    rw [show (strL ".sav") = [46, 115, 97, 118] from by decide]
    simp
    omega
  rw [hlen, List.take_left]

theorem classify_fresh_of_grammar (pfx id t : UStr)
    (hpfx : pfx = strL "MW_" ∨ pfx = strL "MC_")
    (hid : id ≠ []) (hhex : ∀ c ∈ id, isHexCI c = true)
    (ht : lowerL t = strL ".sav.fresh") :
    classifyFile pfx (pfx ++ id ++ t) = some (pfx ++ id, VType.fresh, none) := by
  cases t with
  | nil =>
    exfalso
    rw [show strL ".sav.fresh" = [46, 115, 97, 118, 46, 102, 114, 101, 115, 104] from by decide]
      at ht
    simp [lowerL] at ht
  | cons t0 ts =>
    have ht0 : t0 = 46 := by
      rw [show strL ".sav.fresh" = [46, 115, 97, 118, 46, 102, 114, 101, 115, 104] from by decide]
        at ht
      simp only [lowerL, List.map, List.cons.injEq] at ht
      exact asciiLower_eq_46 t0 ht.1
    obtain ⟨tl, hlast, hal⟩ : ∃ tl, (t0 :: ts).getLast? = some tl ∧ asciiLower tl = 104 := by
      have h1 := getLast_lowerL (t0 :: ts) (strL ".sav.fresh") ht
      rw [show (strL ".sav.fresh").getLast? = some 104 from by decide] at h1
      obtain ⟨tl, h2, h3⟩ := Option.map_eq_some'.mp h1
      exact ⟨tl, h2, h3⟩
    have hmf : matchFresh pfx (pfx ++ id ++ (t0 :: ts)) = some (pfx ++ id) := by
      simp only [matchFresh]
      rw [List.append_assoc, List.drop_left]
      rw [takeWhile_append_all isHexCI id (t0 :: ts) hhex
        (fun c0 hc0 => by rw [List.head?_cons] at hc0; cases hc0; rw [ht0]; decide)]
      rw [List.drop_left]
      rw [if_pos ⟨hid, ht⟩]
    unfold classifyFile
    rw [if_pos (by rw [List.append_assoc]; exact isPrefixOf_append_self _ _)]
    rw [if_neg (main_test_false (pfx ++ id) (t0 :: ts) tl hlast (by rw [hal]; omega))]
    simp only [hmf]

theorem classify_bak_of_grammar (pfx id : UStr) (d1 d2 : Nat) (t : UStr)
    (hpfx : pfx = strL "MW_" ∨ pfx = strL "MC_")
    (hid : id ≠ []) (hhex : ∀ c ∈ id, isHexCI c = true)
    (hd1 : isDigitB d1 = true) (hd2 : isDigitB d2 = true)
    (ht : lowerL t = strL "bak") :
    classifyFile pfx (pfx ++ id ++ (46 :: d1 :: d2 :: 46 :: t))
      = some (pfx ++ id, VType.backup, some (10 * (d1 - 48) + (d2 - 48))) := by
  have htne : t ≠ [] := by
    intro h
    rw [h] at ht
    rw [show strL "bak" = [98, 97, 107] from by decide] at ht
    simp [lowerL] at ht
  obtain ⟨tl, hlastt, hal⟩ : ∃ tl, t.getLast? = some tl ∧ asciiLower tl = 107 := by
    have h1 := getLast_lowerL t (strL "bak") ht
    rw [show (strL "bak").getLast? = some 107 from by decide] at h1
    obtain ⟨tl, h2, h3⟩ := Option.map_eq_some'.mp h1
    exact ⟨tl, h2, h3⟩
  have hlast : (46 :: d1 :: d2 :: 46 :: t).getLast? = some tl := by
    rw [show (46 :: d1 :: d2 :: 46 :: t) = [46, d1, d2, 46] ++ t from by simp]
    rw [List.getLast?_append, hlastt]
    rfl
  have hlow : lowerL (46 :: d1 :: d2 :: 46 :: t) = 46 :: d1 :: d2 :: 46 :: strL "bak" := by
    simp only [lowerL, List.map, asciiLower_46, asciiLower_digit d1 hd1,
      asciiLower_digit d2 hd2]
    rw [show List.map asciiLower t = lowerL t from rfl, ht]
  have hmf : matchFresh pfx (pfx ++ id ++ (46 :: d1 :: d2 :: 46 :: t)) = none := by
    simp only [matchFresh]
    rw [List.append_assoc, List.drop_left]
    rw [takeWhile_append_all isHexCI id (46 :: d1 :: d2 :: 46 :: t) hhex
      (fun c0 hc0 => by rw [List.head?_cons] at hc0; cases hc0; decide)]
    rw [List.drop_left]
    rw [if_neg]
    rintro ⟨-, heq⟩
    rw [hlow] at heq
    rw [show strL ".sav.fresh" = [46, 115, 97, 118, 46, 102, 114, 101, 115, 104] from by decide,
      show strL "bak" = [98, 97, 107] from by decide] at heq
    simp at heq
  have hmb : matchBak pfx (pfx ++ id ++ (46 :: d1 :: d2 :: 46 :: t))
      = some (pfx ++ id, 10 * (d1 - 48) + (d2 - 48)) := by
    simp only [matchBak]
    rw [List.append_assoc, List.drop_left]
    rw [takeWhile_append_all isHexCI id (46 :: d1 :: d2 :: 46 :: t) hhex
      (fun c0 hc0 => by rw [List.head?_cons] at hc0; cases hc0; decide)]
    rw [List.drop_left]
    simp only [List.get?]
    rw [if_pos ⟨hid, hd1, hd2, hlow⟩]
  unfold classifyFile
  rw [if_pos (by rw [List.append_assoc]; exact isPrefixOf_append_self _ _)]
  rw [if_neg (main_test_false (pfx ++ id) (46 :: d1 :: d2 :: 46 :: t) tl hlast
    (by rw [hal]; omega))]
  simp only [hmf, hmb]

theorem classify_bad_of_grammar (pfx id : UStr) (s1 a1 v1 d1 d2 : Nat) (t : UStr)
    (hpfx : pfx = strL "MW_" ∨ pfx = strL "MC_")
    (hid : id ≠ []) (hhex : ∀ c ∈ id, isHexCI c = true)
    (hsav : lowerL [s1, a1, v1] = strL "sav")
    (hd1 : isDigitB d1 = true) (hd2 : isDigitB d2 = true)
    (ht : lowerL t = strL "bad") :
    classifyFile pfx (pfx ++ id ++ (46 :: s1 :: a1 :: v1 :: 46 :: d1 :: d2 :: 46 :: t))
      = some (pfx ++ id, VType.bad, some (10 * (d1 - 48) + (d2 - 48))) := by
  have hsav3 : asciiLower s1 = 115 ∧ asciiLower a1 = 97 ∧ asciiLower v1 = 118 := by
    rw [show strL "sav" = [115, 97, 118] from by decide] at hsav
    simp only [lowerL, List.map] at hsav
    simpa using hsav
  obtain ⟨hs1, ha1, hv1⟩ := hsav3
  have htne : t ≠ [] := by
    intro h
    rw [h] at ht
    rw [show strL "bad" = [98, 97, 100] from by decide] at ht
    simp [lowerL] at ht
  obtain ⟨tl, hlastt, hal⟩ : ∃ tl, t.getLast? = some tl ∧ asciiLower tl = 100 := by
    have h1 := getLast_lowerL t (strL "bad") ht
    rw [show (strL "bad").getLast? = some 100 from by decide] at h1
    obtain ⟨tl, h2, h3⟩ := Option.map_eq_some'.mp h1
    exact ⟨tl, h2, h3⟩
  have hlast : (46 :: s1 :: a1 :: v1 :: 46 :: d1 :: d2 :: 46 :: t).getLast? = some tl := by
    rw [show (46 :: s1 :: a1 :: v1 :: 46 :: d1 :: d2 :: 46 :: t)
        = [46, s1, a1, v1, 46, d1, d2, 46] ++ t from by simp]
    rw [List.getLast?_append, hlastt]
    rfl
  have hlow : lowerL (46 :: s1 :: a1 :: v1 :: 46 :: d1 :: d2 :: 46 :: t)
      = 46 :: 115 :: 97 :: 118 :: 46 :: d1 :: d2 :: 46 :: strL "bad" := by
    simp only [lowerL, List.map, asciiLower_46, asciiLower_digit d1 hd1,
      asciiLower_digit d2 hd2, hs1, ha1, hv1]
    rw [show List.map asciiLower t = lowerL t from rfl, ht]
  have hmf : matchFresh pfx (pfx ++ id ++ (46 :: s1 :: a1 :: v1 :: 46 :: d1 :: d2 :: 46 :: t))
      = none := by
    simp only [matchFresh]
    rw [List.append_assoc, List.drop_left]
    rw [takeWhile_append_all isHexCI id (46 :: s1 :: a1 :: v1 :: 46 :: d1 :: d2 :: 46 :: t) hhex
      (fun c0 hc0 => by rw [List.head?_cons] at hc0; cases hc0; decide)]
    rw [List.drop_left]
    rw [if_neg]
    rintro ⟨-, heq⟩
    rw [hlow] at heq
    rw [show strL ".sav.fresh" = [46, 115, 97, 118, 46, 102, 114, 101, 115, 104] from by decide,
      show strL "bad" = [98, 97, 100] from by decide] at heq
    simp at heq
  have hmb : matchBak pfx (pfx ++ id ++ (46 :: s1 :: a1 :: v1 :: 46 :: d1 :: d2 :: 46 :: t))
      = none := by
    simp only [matchBak]
    rw [List.append_assoc, List.drop_left]
    rw [takeWhile_append_all isHexCI id (46 :: s1 :: a1 :: v1 :: 46 :: d1 :: d2 :: 46 :: t) hhex
      (fun c0 hc0 => by rw [List.head?_cons] at hc0; cases hc0; decide)]
    rw [List.drop_left]
    simp only [List.get?]
    rw [if_neg]
    rintro ⟨-, hds1, -, -⟩
    unfold isDigitB at hds1
    simp only [Bool.and_eq_true, decide_eq_true_eq] at hds1
    have hs1b := hs1
    unfold asciiLower at hs1b
    split at hs1b <;> omega
  have hmd : matchBad pfx (pfx ++ id ++ (46 :: s1 :: a1 :: v1 :: 46 :: d1 :: d2 :: 46 :: t))
      = some (pfx ++ id, 10 * (d1 - 48) + (d2 - 48)) := by
    simp only [matchBad]
    rw [List.append_assoc, List.drop_left]
    rw [takeWhile_append_all isHexCI id (46 :: s1 :: a1 :: v1 :: 46 :: d1 :: d2 :: 46 :: t) hhex
      (fun c0 hc0 => by rw [List.head?_cons] at hc0; cases hc0; decide)]
    rw [List.drop_left]
    simp only [List.get?]
    rw [if_pos ⟨hid, hd1, hd2, hlow⟩]
  unfold classifyFile
  rw [if_pos (by rw [List.append_assoc]; exact isPrefixOf_append_self _ _)]
  rw [if_neg (main_test_false (pfx ++ id) (46 :: s1 :: a1 :: v1 :: 46 :: d1 :: d2 :: 46 :: t)
    tl hlast (by rw [hal]; omega))]
  simp only [hmf, hmb, hmd]

/-- C5 amended — round-trip classification for the grammar the code
actually recognizes: the identity must be a nonempty hex string
(`[A-F0-9]` case-insensitively), the `MW_`/`MC_` prefix must appear in its
exact case, the primary `.sav` suffix must be exact lower case, and the
template/backup/bad suffixes may appear in any case; each such filename is
classified back to exactly its base identity, role, and (for
backup/marked-bad) the numeric ordinal. -/
theorem c5_classifier_round_trip (pfx id : UStr)
    (hpfx : pfx = strL "MW_" ∨ pfx = strL "MC_")
    (hid : id ≠ []) (hhex : ∀ c ∈ id, isHexCI c = true) :
    classifyFile pfx (pfx ++ id ++ strL ".sav") = some (pfx ++ id, VType.main, none)
    ∧ (∀ t, lowerL t = strL ".sav.fresh" →
        classifyFile pfx (pfx ++ id ++ t) = some (pfx ++ id, VType.fresh, none))
    ∧ (∀ d1 d2 t, isDigitB d1 = true → isDigitB d2 = true → lowerL t = strL "bak" →
        classifyFile pfx (pfx ++ id ++ (46 :: d1 :: d2 :: 46 :: t))
          = some (pfx ++ id, VType.backup, some (10 * (d1 - 48) + (d2 - 48))))
    ∧ (∀ s1 a1 v1 d1 d2 t, lowerL [s1, a1, v1] = strL "sav" →
        isDigitB d1 = true → isDigitB d2 = true → lowerL t = strL "bad" →
        classifyFile pfx (pfx ++ id ++ (46 :: s1 :: a1 :: v1 :: 46 :: d1 :: d2 :: 46 :: t))
          = some (pfx ++ id, VType.bad, some (10 * (d1 - 48) + (d2 - 48)))) :=
  ⟨classify_main_of_grammar pfx id hpfx hhex,
    fun t ht => classify_fresh_of_grammar pfx id t hpfx hid hhex ht,
    fun d1 d2 t hd1 hd2 ht => classify_bak_of_grammar pfx id d1 d2 t hpfx hid hhex hd1 hd2 ht,
    fun s1 a1 v1 d1 d2 t hs hd1 hd2 ht =>
      classify_bad_of_grammar pfx id s1 a1 v1 d1 d2 t hpfx hid hhex hs hd1 hd2 ht⟩

/-- Witness for the amended C5 at concrete mixed-case filenames. -/
theorem c5_classifier_round_trip_witness :
    classifyFile (strL "MW_") (strL "MW_AB11.sav") = some (strL "MW_AB11", VType.main, none)
    ∧ classifyFile (strL "MW_") (strL "MW_AB11.SAV.FRESH")
        = some (strL "MW_AB11", VType.fresh, none)
    ∧ classifyFile (strL "MW_") (strL "MW_AB11.07.BAK")
        = some (strL "MW_AB11", VType.backup, some 7)
    ∧ classifyFile (strL "MW_") (strL "MW_AB11.sav.12.bad")
        = some (strL "MW_AB11", VType.bad, some 12) := by
  have h := c5_classifier_round_trip (strL "MW_") (strL "AB11") (Or.inl rfl)
    (by decide) (by decide)
  refine ⟨?_, ?_, ?_, ?_⟩
  · have := h.1
    rw [show strL "MW_" ++ strL "AB11" ++ strL ".sav" = strL "MW_AB11.sav" from by decide,
      show strL "MW_" ++ strL "AB11" = strL "MW_AB11" from by decide] at this
    exact this
  · have := h.2.1 (strL ".SAV.FRESH") (by decide)
    rw [show strL "MW_" ++ strL "AB11" ++ strL ".SAV.FRESH" = strL "MW_AB11.SAV.FRESH"
        from by decide,
      show strL "MW_" ++ strL "AB11" = strL "MW_AB11" from by decide] at this
    exact this
  · have := h.2.2.1 48 55 (strL "BAK") (by decide) (by decide) (by decide)
    rw [show strL "MW_" ++ strL "AB11" ++ (46 :: 48 :: 55 :: 46 :: strL "BAK")
        = strL "MW_AB11.07.BAK" from by decide,
      show strL "MW_" ++ strL "AB11" = strL "MW_AB11" from by decide] at this
    rw [show 10 * (48 - 48) + (55 - 48) = 7 from by decide] at this
    exact this
  · have := h.2.2.2 115 97 118 49 50 (strL "bad") (by decide) (by decide) (by decide)
      (by decide)
    rw [show strL "MW_" ++ strL "AB11" ++ (46 :: 115 :: 97 :: 118 :: 46 :: 49 :: 50 :: 46 :: strL "bad")
        = strL "MW_AB11.sav.12.bad" from by decide,
      show strL "MW_" ++ strL "AB11" = strL "MW_AB11" from by decide] at this
    rw [show 10 * (49 - 48) + (50 - 48) = 12 from by decide] at this
    exact this

/-! ### C7: error degradation -/

/-- An inflation function under which nothing inflates (every
`zlib.decompress` attempt raises). -/
def inflNone : Inflate := fun _ => none

/-- The single character save of the counterexample: correct GVAS signature
but no decodable block. -/
def fC7 : MFile := { name := strL "MC_AB.sav", content := strL "GVAS", mtime := 5, size := 4 }

/-- C7 counterexample — the character parser does not return unparseable for
a GVAS file with no decodable block: it returns a parsed record with no
name, and a directory containing only that file yields one entity, not
zero. -/
theorem c7_counterexample_char_not_unparseable :
    (parse_character_save inflNone fC7).isSome = true
    ∧ (get_characters_with_versions inflNone (some [fC7])).length = 1 := by
  refine ⟨by decide, by decide⟩

/-- C7 amended — a nonexistent save directory yields an empty list from
both aggregators; content without the GVAS signature makes both entity
parsers return unparseable; a world file whose content has no decodable
block parses to unparseable; and a directory containing only one world file
that is unparseable and is named as a primary (or not recognized at all)
yields zero entities without an error. -/
theorem c7_error_degradation :
    (∀ inflate : Inflate, get_worlds_with_versions inflate none = []
      ∧ get_characters_with_versions inflate none = [])
    ∧ (∀ (inflate : Inflate) (f : MFile), (strL "GVAS").isPrefixOf f.content = false →
        parse_world_save inflate f = none ∧ parse_character_save inflate f = none)
    ∧ (∀ (inflate : Inflate) (f : MFile), decompress_first_csdc inflate f.content = none →
        parse_world_save inflate f = none)
    ∧ (∀ (inflate : Inflate) (f : MFile), parse_world_save inflate f = none →
        (classifyFile (strL "MW_") f.name = none
          ∨ ∃ b n, classifyFile (strL "MW_") f.name = some (b, VType.main, n)) →
        get_worlds_with_versions inflate (some [f]) = []) := by
  refine ⟨fun inflate => ⟨rfl, rfl⟩, ?_, ?_, ?_⟩
  · intro inflate f h
    constructor
    · unfold parse_world_save
      rw [h]
      simp
    · unfold parse_character_save
      rw [h]
      simp
  · intro inflate f h
    unfold parse_world_save
    by_cases hg : (strL "GVAS").isPrefixOf f.content = true
    · rw [if_pos hg, h]
    · rw [if_neg (by simpa using hg)]
  · intro inflate f hp hcl
    have hw : get_world_saves inflate [f] = [] := by
      unfold get_world_saves
      rw [List.filterMap_cons]
      have hcase : (if (globSav (strL "MW_") f.name && !suffixesHasBak f.name) = true
          then parse_world_save inflate f else none) = none := by
        split
        · exact hp
        · rfl
      rw [hcase]
      simp [List.insertionSort]
    simp only [get_worlds_with_versions]
    rw [hw]
    simp only [List.foldl_nil, List.foldl_cons]
    rcases hcl with hnone | ⟨b, n, hmain⟩
    · simp [worldScanStep, hnone, processWorldOrphans, List.insertionSort]
    · simp [worldScanStep, hmain, alMem, processWorldOrphans, List.insertionSort]

/-- The unparseable primary-named world file used by the C7 witness. -/
def fC7b : MFile := { name := strL "MW_AB.sav", content := [1, 2, 3], mtime := 3, size := 3 }

/-- Witness for the amended C7 at concrete inputs. -/
theorem c7_error_degradation_witness :
    get_worlds_with_versions inflNone none = []
    ∧ ((strL "GVAS").isPrefixOf fC7b.content = false ∧ parse_world_save inflNone fC7b = none)
    ∧ decompress_first_csdc inflNone (strL "GVAS") = none
    ∧ get_worlds_with_versions inflNone (some [fC7b]) = [] :=
  ⟨(c7_error_degradation.1 inflNone).1,
    ⟨by decide, (c7_error_degradation.2.1 inflNone fC7b (by decide)).1⟩,
    by decide,
    c7_error_degradation.2.2.2 inflNone fC7b (by decide)
      (Or.inr ⟨strL "MW_AB", none, by decide⟩)⟩

/-! ### C10: an empty decoded name is treated as absent -/

/-- C10 — empty decoded name is indistinguishable from absent: a parseable
world file whose name field decodes to the empty string reports
"Unknown World", and in character orphan recovery a candidate whose name
decodes to the empty string is skipped like a failed parse, with the base
identity used when no candidate decodes a name. -/
theorem c10_empty_name_as_absent :
    (∀ (inflate : Inflate) (f : MFile) (d : Bytes),
      (strL "GVAS").isPrefixOf f.content = true →
      decompress_first_csdc inflate f.content = some d →
      extract_string_property d PROP_WORLD_NAME = some [] →
      (parse_world_save inflate f).map (fun i => i.world_name)
        = some (strL "Unknown World"))
    ∧ (∀ (inflate : Inflate) (f : MFile) (t : VType) (n : Option Nat)
        (rest : List OrphEntry) (info : CharacterSaveInfo),
      parse_character_save inflate f = some info →
      info.character_name = some [] →
      findCharName inflate ((f, t, n) :: rest) = findCharName inflate rest)
    ∧ (∀ (inflate : Inflate) (base : UStr) (files : List OrphEntry),
      findCharName inflate (orphanSorted files) = none →
      (mkOrphanChar inflate base files).info.character_name = some base) := by
  refine ⟨?_, ?_, ?_⟩
  · intro inflate f d hg hd hn
    unfold parse_world_save
    rw [if_pos hg, hd]
    simp only [Option.map_some']
    congr 1
    rw [hn]
    rfl
  · intro inflate f t n rest info hp hn
    simp only [findCharName, hp, hn]
    rw [if_neg (by simp)]
  · intro inflate base files h
    simp [mkOrphanChar, h]

/-- Concrete artifacts for the C10 witness: a world file whose `SG_WN`
field decodes to the empty string, and a character file whose SDCP name
decodes to the empty string. -/
def payloadC10 : Bytes := strL "SG_WN" ++ [0, 6] ++ encInt32 1 ++ [0]

def dSDCP : Bytes :=
  [0, 0, 0, 0] ++ strL "SDCP" ++ List.replicate 21 0 ++ encInt32 1 ++ List.replicate 7 0

def inflC10 : Inflate := fun bs =>
  if bs = [7] then some payloadC10 else if bs = [8] then some dSDCP else none

def fC10w : MFile :=
  { name := strL "MW_EE.sav", content := strL "GVAS" ++ strL "CSDC" ++ List.replicate 56 0 ++ [7]
    mtime := 1, size := 0 }

def fC10c : MFile :=
  { name := strL "MC_EE.sav", content := strL "GVAS" ++ strL "CSDC" ++ List.replicate 56 0 ++ [8]
    mtime := 1, size := 0 }

theorem c10_empty_name_as_absent_witness :
    (parse_world_save inflC10 fC10w).map (fun i => i.world_name)
      = some (strL "Unknown World")
    ∧ findCharName inflC10 [(fC10c, VType.fresh, none)] = findCharName inflC10 []
    ∧ (mkOrphanChar inflC10 (strL "MC_EE") []).info.character_name = some (strL "MC_EE") :=
  ⟨c10_empty_name_as_absent.1 inflC10 fC10w payloadC10 (by decide) (by decide) (by decide),
    c10_empty_name_as_absent.2.1 inflC10 fC10c VType.fresh none []
      { file_path := strL "MC_EE.sav", character_name := some [], modified_time := some 1 }
      (by decide) (by decide),
    c10_empty_name_as_absent.2.2 inflC10 (strL "MC_EE") [] (by decide)⟩

/-! ### C9: synthesized orphan world identity -/

theorem replAuxF_hex (fuel : Nat) (l : UStr) (hhex : ∀ c ∈ l, isHexCI c = true) :
    replAuxF (strL "MW_") [] fuel l = l := by
  induction fuel generalizing l with
  | zero =>
    cases l with
    | nil => rfl
    | cons c cs => rfl
  | succ fuel ih =>
    cases l with
    | nil => rfl
    | cons c cs =>
      have hc := hhex c (by simp)
      have hne : ((77 : Nat) == c) = false := by
        unfold isHexCI at hc
        simp only [Bool.or_eq_true, Bool.and_eq_true, decide_eq_true_eq] at hc
        simp only [beq_eq_false_iff_ne, ne_eq]
        omega
      unfold replAuxF
      rw [show strL "MW_" = [77, 87, 95] from by decide]
      rw [if_neg (by simp [List.isPrefixOf, hne])]
      rw [show ([77, 87, 95] : UStr) = strL "MW_" from by decide]
      rw [ih cs (fun x hx => hhex x (by simp [hx]))]

theorem replaceAll_strip_mw (id : UStr) (hhex : ∀ c ∈ id, isHexCI c = true) :
    replaceAll (strL "MW_" ++ id) (strL "MW_") [] = id := by
  unfold replaceAll
  rw [if_neg (by decide)]
  rw [show strL "MW_" ++ id = 77 :: 87 :: 95 :: id from by
    rw [show strL "MW_" = [77, 87, 95] from by decide]; rfl]
  rw [show (77 :: 87 :: 95 :: id).length = id.length + 2 + 1 from by simp]
  unfold replAuxF
  rw [if_pos (by rw [show strL "MW_" = [77, 87, 95] from by decide]; simp [List.isPrefixOf])]
  rw [show List.drop (strL "MW_").length (77 :: 87 :: 95 :: id) = id from by
    rw [show (strL "MW_").length = 3 from by decide]; rfl]
  rw [replAuxF_hex _ id hhex]
  rfl

/-- C9 — synthesized orphan world identity: the world GUID of an
orphan-recovered entity is the base identity with the `MW_` prefix
removed, its map name is empty and its world seed absent, regardless of
whether a candidate file decoded; only the world name and the source path
come from the decoded file. -/
theorem c9_orphan_world_identity (inflate : Inflate) (id : UStr) (files : List OrphEntry)
    (hhex : ∀ c ∈ id, isHexCI c = true) :
    (mkOrphanWorld inflate (strL "MW_" ++ id) files).info.world_guid = id
    ∧ (mkOrphanWorld inflate (strL "MW_" ++ id) files).info.map_name = []
    ∧ (mkOrphanWorld inflate (strL "MW_" ++ id) files).info.world_seed = none
    ∧ (∀ w p, findWorldName inflate (orphanSorted files) = some (w, p) →
        (mkOrphanWorld inflate (strL "MW_" ++ id) files).info.world_name = w
        ∧ (mkOrphanWorld inflate (strL "MW_" ++ id) files).info.file_path = p) := by
  refine ⟨?_, rfl, rfl, ?_⟩
  · show replaceAll (strL "MW_" ++ id) (strL "MW_") [] = id
    exact replaceAll_strip_mw id hhex
  · intro w p h
    refine ⟨?_, ?_⟩ <;> simp [mkOrphanWorld, h]

/-! ### C6: orphan identity recovery order -/

/-- Concrete orphan directory: two backup files for the same base, listed
(and therefore buffered) with ordinal 05 before ordinal 02; both parse, to
world names "X" and "Y" respectively. -/
def payloadC6X : Bytes := strL "SG_WN" ++ [0, 6] ++ encInt32 2 ++ [88, 0]

def payloadC6Y : Bytes := strL "SG_WN" ++ [0, 6] ++ encInt32 2 ++ [89, 0]

def inflC6 : Inflate := fun bs =>
  if bs = [1] then some payloadC6X else if bs = [2] then some payloadC6Y else none

def f05C6 : MFile :=
  { name := strL "MW_CC99.05.bak", content := strL "GVAS" ++ strL "CSDC" ++ List.replicate 56 0 ++ [1]
    mtime := 50, size := 0 }

def f02C6 : MFile :=
  { name := strL "MW_CC99.02.bak", content := strL "GVAS" ++ strL "CSDC" ++ List.replicate 56 0 ++ [2]
    mtime := 40, size := 0 }

def dirC6 : List MFile := [f05C6, f02C6]

def entriesC6 : List OrphEntry := [(f05C6, VType.backup, some 5), (f02C6, VType.backup, some 2)]

/-- The attempt order the claim describes: template, then numbered backups
in ascending ordinal order, then marked-bad. -/
def claimOrphanOrder (files : List OrphEntry) : List OrphEntry :=
  List.insertionSort (fun a b => typeRank a.2.1 < typeRank b.2.1
    ∨ (typeRank a.2.1 = typeRank b.2.1 ∧ a.2.2.getD 0 ≤ b.2.2.getD 0)) files

/-- C6 counterexample — the source sorts orphan candidates by role rank
only (stable in buffered order), not by ascending ordinal: with backups
buffered as 05 then 02, the aggregator decodes the identity from the
ordinal-05 file (name "X"), while the claim's ascending-ordinal order
would decode from the ordinal-02 file (name "Y"). -/
theorem c6_counterexample_encounter_order :
    ((get_worlds_with_versions inflC6 (some dirC6)).map (fun w => w.world_name)) = [strL "X"]
    ∧ findWorldName inflC6 (claimOrphanOrder entriesC6)
        = some (strL "Y", strL "MW_CC99.02.bak")
    ∧ strL "X" ≠ strL "Y" := by
  refine ⟨by decide, by decide, by decide⟩

theorem findWorldName_append_fail (inflate : Inflate) (as rest : List OrphEntry)
    (h : ∀ g ∈ as, ∀ j, parse_world_save inflate g.1 = some j → j.world_name = []) :
    findWorldName inflate (as ++ rest) = findWorldName inflate rest := by
  induction as with
  | nil => rfl
  | cons g as ih =>
    obtain ⟨f, t, n⟩ := g
    rw [List.cons_append]
    simp only [findWorldName]
    cases hp : parse_world_save inflate f with
    | none =>
      simp only [hp]
      exact ih (fun g0 hg0 => h g0 (by simp [hg0]))
    | some j =>
      have hj := h (f, t, n) (by simp) j hp
      simp only [hp]
      rw [if_neg (by simp [hj])]
      exact ih (fun g0 hg0 => h g0 (by simp [hg0]))

/-- C6 amended — the orphan candidates are attempted in the preference
order template, then numbered backups, then marked-bad, stably in buffered
(directory-encounter) order within each class — the ordinal does not
influence the attempt order; the first candidate that parses with a truthy
world name provides the identity, and if none does the base identity is
used as the display name. -/
theorem c6_orphan_recovery_order (inflate : Inflate) (base : UStr) (files : List OrphEntry) :
    (orphanSorted files).Perm files
    ∧ List.Sorted (fun a b => typeRank a.2.1 ≤ typeRank b.2.1) (orphanSorted files)
    ∧ (∀ as f t n bs i, orphanSorted files = as ++ (f, t, n) :: bs →
        (∀ g ∈ as, ∀ j, parse_world_save inflate g.1 = some j → j.world_name = []) →
        parse_world_save inflate f = some i → i.world_name ≠ [] →
        (mkOrphanWorld inflate base files).info.world_name = i.world_name
          ∧ (mkOrphanWorld inflate base files).info.file_path = f.name)
    ∧ ((∀ g ∈ orphanSorted files, ∀ j, parse_world_save inflate g.1 = some j →
          j.world_name = []) →
        (mkOrphanWorld inflate base files).info.world_name = base) := by
  refine ⟨List.perm_insertionSort _ files, ?_, ?_, ?_⟩
  · exact @List.sorted_insertionSort OrphEntry
      (fun a b => typeRank a.2.1 ≤ typeRank b.2.1) (fun a b => Nat.decLe _ _)
      ⟨fun a b => Nat.le_total _ _⟩ ⟨fun a b c hab hbc => Nat.le_trans hab hbc⟩ files
  · intro as f t n bs i hsplit hfail hp hname
    have hfind : findWorldName inflate (orphanSorted files) = some (i.world_name, f.name) := by
      rw [hsplit, findWorldName_append_fail inflate as _ hfail]
      simp only [findWorldName, hp]
      rw [if_pos hname]
    refine ⟨?_, ?_⟩ <;> simp [mkOrphanWorld, hfind]
  · intro hall
    have hfind : findWorldName inflate (orphanSorted files) = none := by
      have := findWorldName_append_fail inflate (orphanSorted files) [] (by
        intro g hg j hj
        exact hall g hg j hj)
      rw [List.append_nil] at this
      rw [this]
      rfl
    simp [mkOrphanWorld, hfind]

/-- Witness for the amended C6 on the concrete two-backup orphan group. -/
theorem c6_orphan_recovery_order_witness :
    orphanSorted entriesC6 = [] ++ (f05C6, VType.backup, some 5) :: [(f02C6, VType.backup, some 2)]
    ∧ (mkOrphanWorld inflC6 (strL "MW_CC99") entriesC6).info.world_name = strL "X"
    ∧ (mkOrphanWorld inflC6 (strL "MW_CC99") entriesC6).info.file_path = strL "MW_CC99.05.bak" := by
  refine ⟨by decide, ?_⟩
  have h := (c6_orphan_recovery_order inflC6 (strL "MW_CC99") entriesC6).2.2.1
    [] f05C6 VType.backup (some 5) [(f02C6, VType.backup, some 2)]
    { file_path := strL "MW_CC99.05.bak", world_name := strL "X", world_guid := []
      map_name := [], world_seed := none, modified_time := some 50 }
    (by decide) (by intro g hg j hj; simp at hg) (by decide) (by decide)
  exact ⟨h.1, h.2⟩

/-- Witness for C9: a concrete orphan group whose backup file decodes a
world name; the synthesized identity still takes GUID from the base
identity, empty map name and no seed. -/
theorem c9_orphan_world_identity_witness :
    (∀ c ∈ strL "CC99", isHexCI c = true)
    ∧ (mkOrphanWorld inflC6 (strL "MW_" ++ strL "CC99") entriesC6).info.world_guid = strL "CC99"
    ∧ (mkOrphanWorld inflC6 (strL "MW_" ++ strL "CC99") entriesC6).info.map_name = []
    ∧ (mkOrphanWorld inflC6 (strL "MW_" ++ strL "CC99") entriesC6).info.world_seed = none
    ∧ (mkOrphanWorld inflC6 (strL "MW_" ++ strL "CC99") entriesC6).info.world_name = strL "X" :=
  ⟨by decide,
    (c9_orphan_world_identity inflC6 (strL "CC99") entriesC6 (by decide)).1,
    (c9_orphan_world_identity inflC6 (strL "CC99") entriesC6 (by decide)).2.1,
    (c9_orphan_world_identity inflC6 (strL "CC99") entriesC6 (by decide)).2.2.1,
    ((c9_orphan_world_identity inflC6 (strL "CC99") entriesC6 (by decide)).2.2.2
      (strL "X") (strL "MW_CC99.05.bak") (by decide)).1⟩

/-! ### C8: derived version views -/

theorem find?_of_filter_singleton {α : Type} (p : α → Bool) (l : List α) (x : α)
    (h : l.filter p = [x]) : l.find? p = some x := by
  induction l with
  | nil => simp at h
  | cons a t ih =>
    by_cases hp : p a = true
    · rw [List.filter_cons_of_pos hp] at h
      simp only [List.cons.injEq] at h
      rw [List.find?_cons_of_pos _ hp, h.1]
    · rw [List.filter_cons_of_neg (by simpa using hp)] at h
      rw [List.find?_cons_of_neg _ (by simpa using hp)]
      exact ih h

/-- Concrete scenario files for C8 (`MW_AA11` with a parseable primary
encoding the world name "Khazad-dûm", a template and two backups). -/
def payloadC8 : Bytes := strL "SG_WN" ++ [0, 6] ++ encInt32 12 ++ utf8Enc (strL "Khazad-dûm") ++ [0]

def inflC8 : Inflate := fun bs => if bs = [9] then some payloadC8 else none

def fMainC8 : MFile :=
  { name := strL "MW_AA11.sav", content := strL "GVAS" ++ strL "CSDC" ++ List.replicate 56 0 ++ [9]
    mtime := 100, size := 65 }

def fFreshC8 : MFile := { name := strL "MW_AA11.sav.fresh", content := [], mtime := 90, size := 0 }

def fB0C8 : MFile := { name := strL "MW_AA11.00.bak", content := [], mtime := 80, size := 7 }

def fB1C8 : MFile := { name := strL "MW_AA11.01.bak", content := [], mtime := 85, size := 8 }

def dirC8 : List MFile := [fMainC8, fFreshC8, fB0C8, fB1C8]

def vMainC8 : SaveFileVersion :=
  { file_path := strL "MW_AA11.sav", version_type := VType.main, backup_number := none
    modified_time := some 100, file_size := 65 }

def vFreshC8 : SaveFileVersion :=
  { file_path := strL "MW_AA11.sav.fresh", version_type := VType.fresh, backup_number := none
    modified_time := some 90, file_size := 0 }

def vB0C8 : SaveFileVersion :=
  { file_path := strL "MW_AA11.00.bak", version_type := VType.backup, backup_number := some 0
    modified_time := some 80, file_size := 7 }

def vB1C8 : SaveFileVersion :=
  { file_path := strL "MW_AA11.01.bak", version_type := VType.backup, backup_number := some 1
    modified_time := some 85, file_size := 8 }

/-- C8 — derived version views: `main_file` is the attached primary-role
version when there is exactly one and `none` when there is none, likewise
`fresh_file` for the template role, and `backup_files` is exactly the
backup-role versions in ascending ordinal order; concretely, the
`MW_AA11` directory yields one entity named "Khazad-dûm" whose primary is
the `.sav` file, template the `.fresh` file, and backups ordered 00 then
01. -/
theorem c8_derived_views :
    (∀ w : WorldWithVersions,
      w.versions.filter (fun v => decide (v.version_type = VType.main)) = [] →
      w.main_file = none)
    ∧ (∀ (w : WorldWithVersions) (v : SaveFileVersion),
      w.versions.filter (fun v0 => decide (v0.version_type = VType.main)) = [v] →
      w.main_file = some v)
    ∧ (∀ w : WorldWithVersions,
      w.versions.filter (fun v => decide (v.version_type = VType.fresh)) = [] →
      w.fresh_file = none)
    ∧ (∀ (w : WorldWithVersions) (v : SaveFileVersion),
      w.versions.filter (fun v0 => decide (v0.version_type = VType.fresh)) = [v] →
      w.fresh_file = some v)
    ∧ (∀ w : WorldWithVersions,
      (w.backup_files).Perm (w.versions.filter (fun v => decide (v.version_type = VType.backup)))
      ∧ List.Sorted (fun v1 v2 => v1.backup_number.getD 0 ≤ v2.backup_number.getD 0)
          w.backup_files)
    ∧ (get_worlds_with_versions inflC8 (some dirC8)).map
        (fun w => (w.world_name, w.main_file, w.fresh_file, w.backup_files))
      = [(strL "Khazad-dûm", some vMainC8, some vFreshC8, [vB0C8, vB1C8])] := by
  refine ⟨?_, ?_, ?_, ?_, ?_, by decide⟩
  · intro w h
    exact List.find?_eq_none.mpr (fun x hx => (List.filter_eq_nil.mp h) x hx)
  · intro w v h
    exact find?_of_filter_singleton _ _ v h
  · intro w h
    exact List.find?_eq_none.mpr (fun x hx => (List.filter_eq_nil.mp h) x hx)
  · intro w v h
    exact find?_of_filter_singleton _ _ v h
  · intro w
    refine ⟨List.perm_insertionSort _ _, ?_⟩
    exact @List.sorted_insertionSort SaveFileVersion
      (fun v1 v2 => v1.backup_number.getD 0 ≤ v2.backup_number.getD 0)
      (fun a b => Nat.decLe _ _) ⟨fun a b => Nat.le_total _ _⟩
      ⟨fun a b c hab hbc => Nat.le_trans hab hbc⟩
      (w.versions.filter (fun v => decide (v.version_type = VType.backup)))

/-- Witness for C8 discharging the singleton-filter hypotheses at the
concrete scenario entity. -/
def wC8 : WorldWithVersions :=
  { info := { file_path := strL "MW_AA11.sav", world_name := strL "Khazad-dûm"
              world_guid := [], map_name := [], world_seed := none, modified_time := some 100 }
    versions := [vMainC8, vFreshC8, vB0C8, vB1C8] }

theorem c8_derived_views_witness :
    wC8.versions.filter (fun v0 => decide (v0.version_type = VType.main)) = [vMainC8]
    ∧ wC8.main_file = some vMainC8
    ∧ wC8.versions.filter (fun v0 => decide (v0.version_type = VType.fresh)) = [vFreshC8]
    ∧ wC8.fresh_file = some vFreshC8 :=
  ⟨by decide, c8_derived_views.2.1 wC8 vMainC8 (by decide),
    by decide, c8_derived_views.2.2.2.1 wC8 vFreshC8 (by decide)⟩

/-! ### C1 — no-file-loss accounting in `get_worlds_with_versions`

The counting argument tracks the association-list states of the scan loop:
the key lists, the multiset of attached version file paths, and the
multiset of buffered orphan file names. -/

/-- The base identity of a file name: everything before the first `.`
(`file_path.name.split('.')[0]`). -/
def baseOf (name : UStr) : UStr := name.takeWhile (fun c => c != 46)

/-- Keys of the association-list model of a `dict`, in insertion order. -/
def alKeys (m : List (UStr × β)) : List UStr := m.map (fun p => p.1)

/-- All version file paths stored in a world map, in map order. -/
def vpaths (m : List (UStr × WorldWithVersions)) : List UStr :=
  ((m.map (fun p => p.2.versions)).flatten).map (fun v => v.file_path)

/-- All buffered orphan file names, in buffer order. -/
def opaths (o : List (UStr × List OrphEntry)) : List UStr :=
  ((o.map (fun p => p.2)).flatten).map (fun e => e.1.name)

theorem alMem_iff {β : Type} (k : UStr) (m : List (UStr × β)) :
    alMem k m = true ↔ k ∈ alKeys m := by
  induction m with
  | nil => simp [alMem, alKeys]
  | cons p m ih =>
    simp only [alMem, List.any_cons, Bool.or_eq_true, beq_iff_eq, alKeys, List.map_cons,
      List.mem_cons] at *
    constructor
    · rintro (h | h)
      · exact Or.inl h.symm
      · exact Or.inr (ih.mp h)
    · rintro (h | h)
      · exact Or.inl h.symm
      · exact Or.inr (ih.mpr h)

theorem alMem_false_iff {β : Type} (k : UStr) (m : List (UStr × β)) :
    alMem k m = false ↔ k ∉ alKeys m := by
  rw [← alMem_iff]
  cases alMem k m <;> simp

theorem alMem_eq_any {β : Type} (k : UStr) (m : List (UStr × β)) :
    alMem k m = (alKeys m).any (fun x => x == k) := by
  induction m with
  | nil => rfl
  | cons p m ih =>
    simp only [alMem, List.any_cons, alKeys, List.map_cons] at *
    rw [ih]

/-- Membership in a `dict` only depends on the key list. -/
theorem alMem_congr_keys {β γ : Type} (k : UStr) (m1 : List (UStr × β))
    (m2 : List (UStr × γ)) (h : alKeys m1 = alKeys m2) : alMem k m1 = alMem k m2 := by
  rw [alMem_eq_any, alMem_eq_any, h]

theorem alKeys_append {β : Type} (m1 m2 : List (UStr × β)) :
    alKeys (m1 ++ m2) = alKeys m1 ++ alKeys m2 := by
  simp [alKeys]

theorem alMem_append {β : Type} (k : UStr) (m1 m2 : List (UStr × β)) :
    alMem k (m1 ++ m2) = (alMem k m1 || alMem k m2) := by
  simp [alMem, List.any_append]

theorem vpaths_cons (p : UStr × WorldWithVersions) (m : List (UStr × WorldWithVersions)) :
    vpaths (p :: m) = p.2.versions.map (fun v => v.file_path) ++ vpaths m := by
  simp [vpaths]

theorem vpaths_append (m1 m2 : List (UStr × WorldWithVersions)) :
    vpaths (m1 ++ m2) = vpaths m1 ++ vpaths m2 := by
  simp [vpaths]

theorem opaths_cons (p : UStr × List OrphEntry) (o : List (UStr × List OrphEntry)) :
    opaths (p :: o) = p.2.map (fun e => e.1.name) ++ opaths o := by
  simp [opaths]

theorem alKeys_wAttach (b : UStr) (v : SaveFileVersion)
    (m : List (UStr × WorldWithVersions)) : alKeys (wAttach b v m) = alKeys m := by
  induction m with
  | nil => rfl
  | cons p m ih =>
    simp only [wAttach, alKeys, List.map_cons] at *
    by_cases h : p.1 = b
    · simp [h, ih]
    · simp [h, ih]

theorem wAttach_not_mem (b : UStr) (v : SaveFileVersion)
    (m : List (UStr × WorldWithVersions)) (h : alMem b m = false) : wAttach b v m = m := by
  induction m with
  | nil => rfl
  | cons p m ih =>
    simp only [alMem, List.any_cons, Bool.or_eq_false_iff] at h
    have hne : p.1 ≠ b := by simpa using h.1
    simp only [wAttach, List.map_cons, if_neg hne]
    have htail : wAttach b v m = m := ih h.2
    simp only [wAttach] at htail
    rw [htail]

theorem vpaths_wAttach (b : UStr) (v : SaveFileVersion)
    (m : List (UStr × WorldWithVersions)) (hnd : (alKeys m).Nodup)
    (hmem : alMem b m = true) :
    (vpaths (wAttach b v m)).Perm (v.file_path :: vpaths m) := by
  induction m with
  | nil => simp [alMem] at hmem
  | cons p m ih =>
    simp only [alMem, List.any_cons, Bool.or_eq_true, beq_iff_eq] at hmem
    simp only [alKeys, List.map_cons, List.nodup_cons] at hnd
    obtain ⟨hp1, hnd2⟩ := hnd
    by_cases hb : p.1 = b
    · have htail : alMem b m = false := by
        rw [alMem_false_iff]
        rw [← hb]
        exact hp1
      simp only [wAttach, List.map_cons, if_pos hb]
      have htl : List.map (fun p => if p.1 = b then
          (p.1, { p.2 with versions := p.2.versions ++ [v] }) else p) m = m := by
        have := wAttach_not_mem b v m htail
        simpa [wAttach] using this
      rw [htl, vpaths_cons, vpaths_cons]
      simp only [List.map_append]
      refine (List.Perm.append_right _ (List.perm_append_singleton _ _)).trans ?_
      simp
    · have hmem2 : alMem b m = true := by
        rcases hmem with h | h
        · exact absurd h hb
        · exact h
      simp only [wAttach, List.map_cons, if_neg hb]
      have hstep : (vpaths (wAttach b v m)).Perm (v.file_path :: vpaths m) := ih hnd2 hmem2
      simp only [wAttach] at hstep
      rw [vpaths_cons, vpaths_cons]
      refine ((List.Perm.append_left _ hstep).trans ?_)
      exact List.perm_middle

theorem alKeys_orphAdd_mem (b : UStr) (e : OrphEntry) (o : List (UStr × List OrphEntry))
    (h : alMem b o = true) : alKeys (orphAdd b e o) = alKeys o := by
  simp only [orphAdd, if_pos h, alKeys, List.map_map]
  refine List.map_congr_left ?_
  intro p _
  by_cases hab : p.1 = b <;> simp [hab]

theorem alKeys_orphAdd_new (b : UStr) (e : OrphEntry) (o : List (UStr × List OrphEntry))
    (h : alMem b o = false) : alKeys (orphAdd b e o) = alKeys o ++ [b] := by
  simp only [orphAdd, h]
  simp [alKeys]

theorem orphUpd_not_mem (b : UStr) (e : OrphEntry) (o : List (UStr × List OrphEntry))
    (h : alMem b o = false) :
    o.map (fun p => if p.1 = b then (p.1, p.2 ++ [e]) else p) = o := by
  induction o with
  | nil => rfl
  | cons p o ih =>
    simp only [alMem, List.any_cons, Bool.or_eq_false_iff] at h
    have hne : p.1 ≠ b := by simpa using h.1
    simp only [List.map_cons, if_neg hne]
    rw [ih h.2]

theorem opaths_orphUpd (b : UStr) (e : OrphEntry) (o : List (UStr × List OrphEntry))
    (hnd : (alKeys o).Nodup) (hmem : alMem b o = true) :
    (opaths (o.map (fun p => if p.1 = b then (p.1, p.2 ++ [e]) else p))).Perm
      (e.1.name :: opaths o) := by
  induction o with
  | nil => simp [alMem] at hmem
  | cons p o ih =>
    simp only [alMem, List.any_cons, Bool.or_eq_true, beq_iff_eq] at hmem
    simp only [alKeys, List.map_cons, List.nodup_cons] at hnd
    obtain ⟨hp1, hnd2⟩ := hnd
    by_cases hb : p.1 = b
    · have htail : alMem b o = false := by
        rw [alMem_false_iff, ← hb]
        exact hp1
      rw [List.map_cons, if_pos hb, orphUpd_not_mem b e o htail, opaths_cons, opaths_cons]
      simp only [List.map_append]
      refine (List.Perm.append_right _ (List.perm_append_singleton _ _)).trans ?_
      simp
    · have hm2 : alMem b o = true := by
        rcases hmem with h | h
        · exact absurd h hb
        · exact h
      rw [List.map_cons, if_neg hb, opaths_cons, opaths_cons]
      refine (List.Perm.append_left _ (ih hnd2 hm2)).trans ?_
      exact List.perm_middle

theorem opaths_orphAdd (b : UStr) (e : OrphEntry) (o : List (UStr × List OrphEntry))
    (hnd : (alKeys o).Nodup) : (opaths (orphAdd b e o)).Perm (e.1.name :: opaths o) := by
  cases hm : alMem b o with
  | true =>
    simp only [orphAdd, if_pos hm]
    exact opaths_orphUpd b e o hnd hm
  | false =>
    simp only [orphAdd, hm, Bool.false_eq_true, if_false]
    have hsing : opaths (o ++ [(b, [e])]) = opaths o ++ [e.1.name] := by
      simp [opaths]
    rw [hsing]
    exact List.perm_append_singleton _ _

theorem drop_length_takeWhile (p : Nat → Bool) (l : List Nat) :
    l.drop (l.takeWhile p).length = l.dropWhile p := by
  induction l with
  | nil => rfl
  | cons c cs ih =>
    cases h : p c with
    | true => simp [List.takeWhile_cons, List.dropWhile_cons, h, ih]
    | false => simp [List.takeWhile_cons, List.dropWhile_cons, h]

theorem head_lowerL (t lit : UStr) (h : lowerL t = lit) :
    t.head?.map asciiLower = lit.head? := by
  rw [← h]
  unfold lowerL
  cases t <;> simp

/-- A tail whose lower-casing ends in a letter other than `v` denies the
case-sensitive `.sav` suffix test. -/
theorem suffix_sav_false_of_lower (A tail lit : UStr) (w : Nat)
    (hlow : lowerL tail = lit) (hw : lit.getLast? = some w) (hw118 : w ≠ 118) :
    (strL ".sav").isSuffixOf (A ++ tail) = false := by
  cases hs : (strL ".sav").isSuffixOf (A ++ tail) with
  | false => rfl
  | true =>
    exfalso
    have h1 := suffix_sav_getLast _ hs
    have hne : tail ≠ [] := by
      intro he
      rw [he] at hlow
      rw [← hlow] at hw
      simp [lowerL] at hw
    rw [List.getLast?_append_of_ne_nil A hne] at h1
    have h2 := getLast_lowerL tail lit hlow
    rw [h1, hw] at h2
    simp only [Option.map_some'] at h2
    have h3 : asciiLower 118 = w := Option.some.inj h2
    rw [show asciiLower 118 = 118 from by decide] at h3
    exact hw118 h3.symm

/-- Shared inversion core for the three suffix matchers: a name that is
prefix + hex id + a dotted tail has the id as its base identity, a dotless
base, and fails the case-sensitive `.sav` suffix test. -/
theorem matcher_shape_inv (pfx rest id' tail lit b : UStr) (w : Nat)
    (hpfxd : ∀ c ∈ pfx, c ≠ 46)
    (hid : id' = rest.takeWhile isHexCI)
    (htail : tail = rest.drop id'.length)
    (hb : b = pfx ++ id')
    (hlow : lowerL tail = lit)
    (hlithead : lit.head? = some 46)
    (hlitlast : lit.getLast? = some w) (hw : w ≠ 118) :
    baseOf (pfx ++ rest) = b ∧ (∀ c ∈ b, c ≠ 46)
      ∧ (strL ".sav").isSuffixOf (pfx ++ rest) = false := by
  have hhex : ∀ c ∈ id', isHexCI c = true := by
    intro c hc
    rw [hid] at hc
    exact List.mem_takeWhile_imp hc
  have hrest : rest = id' ++ tail := by
    rw [htail, hid, drop_length_takeWhile]
    exact (List.takeWhile_append_dropWhile isHexCI rest).symm
  have hth : tail.head? = some 46 := by
    have h1 := head_lowerL tail lit hlow
    rw [hlithead] at h1
    cases hc : tail.head? with
    | none => rw [hc] at h1; exact absurd h1 (by simp)
    | some c0 =>
      rw [hc] at h1
      simp only [Option.map_some'] at h1
      have h2 : asciiLower c0 = 46 := Option.some.inj h1
      exact congrArg some (asciiLower_eq_46 c0 h2)
  have hbd : ∀ c ∈ b, c ≠ 46 := by
    rw [hb]
    intro c hc
    rcases List.mem_append.mp hc with h | h
    · exact hpfxd c h
    · exact isHexCI_ne_46 c (hhex c h)
  refine ⟨?_, hbd, ?_⟩
  · rw [hb, hrest, ← List.append_assoc]
    unfold baseOf
    apply takeWhile_append_all
    · intro c hc
      have hcne : c ≠ 46 := hbd c (hb ▸ hc)
      simpa using hcne
    · intro c0 hc0
      rw [hth] at hc0
      cases hc0
      simp
  · rw [hrest, ← List.append_assoc]
    exact suffix_sav_false_of_lower (pfx ++ id') tail lit w hlow hlitlast hw

theorem matchFresh_inv (pfx name b : UStr) (hpfxd : ∀ c ∈ pfx, c ≠ 46)
    (hpref : pfx.isPrefixOf name = true) (h : matchFresh pfx name = some b) :
    baseOf name = b ∧ (∀ c ∈ b, c ≠ 46)
      ∧ (strL ".sav").isSuffixOf name = false := by
  obtain ⟨rest, hname⟩ := List.isPrefixOf_iff_prefix.mp hpref
  subst hname
  simp only [matchFresh, List.drop_left] at h
  split at h
  case isTrue hguard =>
    simp only [Option.some.injEq] at h
    exact matcher_shape_inv pfx rest _ _ (strL ".sav.fresh") b 104 hpfxd rfl rfl h.symm
      hguard.2 (by decide) (by decide) (by decide)
  case isFalse => exact absurd h (by simp)

theorem matchBak_inv (pfx name b : UStr) (k : Nat) (hpfxd : ∀ c ∈ pfx, c ≠ 46)
    (hpref : pfx.isPrefixOf name = true) (h : matchBak pfx name = some (b, k)) :
    baseOf name = b ∧ (∀ c ∈ b, c ≠ 46)
      ∧ (strL ".sav").isSuffixOf name = false := by
  obtain ⟨rest, hname⟩ := List.isPrefixOf_iff_prefix.mp hpref
  subst hname
  simp only [matchBak, List.drop_left] at h
  split at h
  next d1 d2 hg1 hg2 =>
    split at h
    case isTrue hguard =>
      simp only [Option.some.injEq, Prod.mk.injEq] at h
      refine matcher_shape_inv pfx rest _ _ (46 :: d1 :: d2 :: 46 :: strL "bak") b 107 hpfxd
        rfl rfl h.1.symm hguard.2.2.2 rfl ?_ (by decide)
      rw [show 46 :: d1 :: d2 :: 46 :: strL "bak" = [46, d1, d2, 46] ++ strL "bak" from rfl]
      rw [List.getLast?_append_of_ne_nil _ (by decide)]
      decide
    case isFalse => exact absurd h (by simp)
  next hg => exact absurd h (by simp)

theorem matchBad_inv (pfx name b : UStr) (k : Nat) (hpfxd : ∀ c ∈ pfx, c ≠ 46)
    (hpref : pfx.isPrefixOf name = true) (h : matchBad pfx name = some (b, k)) :
    baseOf name = b ∧ (∀ c ∈ b, c ≠ 46)
      ∧ (strL ".sav").isSuffixOf name = false := by
  obtain ⟨rest, hname⟩ := List.isPrefixOf_iff_prefix.mp hpref
  subst hname
  simp only [matchBad, List.drop_left] at h
  split at h
  next d1 d2 hg1 hg2 =>
    split at h
    case isTrue hguard =>
      simp only [Option.some.injEq, Prod.mk.injEq] at h
      refine matcher_shape_inv pfx rest _ _
        (46 :: 115 :: 97 :: 118 :: 46 :: d1 :: d2 :: 46 :: strL "bad") b 100 hpfxd
        rfl rfl h.1.symm hguard.2.2.2 rfl ?_ (by decide)
      rw [show 46 :: 115 :: 97 :: 118 :: 46 :: d1 :: d2 :: 46 :: strL "bad"
        = [46, 115, 97, 118, 46, d1, d2, 46] ++ strL "bad" from rfl]
      rw [List.getLast?_append_of_ne_nil _ (by decide)]
      decide
    case isFalse => exact absurd h (by simp)
  next hg => exact absurd h (by simp)

/-- Inversion of the main-save branch of the classifier. -/
theorem classify_main_inv (name b : UStr) (n : Option Nat)
    (h : classifyFile (strL "MW_") name = some (b, VType.main, n)) :
    name = b ++ strL ".sav" ∧ n = none
      ∧ (strL "MW_").isPrefixOf name = true := by
  unfold classifyFile at h
  split at h
  case isFalse => exact absurd h (by simp)
  case isTrue hpref =>
    split at h
    case isTrue hmain =>
      simp only [Option.some.injEq, Prod.mk.injEq] at h
      obtain ⟨hb, -, hn⟩ := h
      obtain ⟨pre, hpre⟩ := List.isSuffixOf_iff_suffix.mp hmain.1
      subst hpre
      have h4 : (strL ".sav").length = 4 := by decide
      have hlen : (pre ++ strL ".sav").length - 4 = pre.length := by
        rw [List.length_append, h4]
        omega
      rw [hlen, List.take_left] at hb
      exact ⟨by rw [← hb], hn.symm, hpref⟩
    case isFalse hmain =>
      split at h
      next base hf => exact absurd h (by simp)
      next hf =>
        split at h
        next base k hbak => exact absurd h (by simp)
        next hbak =>
          split at h
          next base k hbad => exact absurd h (by simp)
          next hbad => exact absurd h (by simp)

/-- Inversion of the non-main branches of the classifier: the base is the
dotless `baseOf` of the name, and the name fails the `MW_*.sav` glob. -/
theorem classify_nonmain_inv (name b : UStr) (t : VType) (n : Option Nat)
    (h : classifyFile (strL "MW_") name = some (b, t, n)) (ht : t ≠ VType.main) :
    baseOf name = b ∧ (∀ c ∈ b, c ≠ 46) ∧ globSav (strL "MW_") name = false := by
  have hpfxd : ∀ c ∈ strL "MW_", c ≠ 46 := pfx_no_dot _ (Or.inl rfl)
  unfold classifyFile at h
  split at h
  case isFalse => exact absurd h (by simp)
  case isTrue hpref =>
    split at h
    case isTrue hmain =>
      exfalso
      apply ht
      simp only [Option.some.injEq, Prod.mk.injEq] at h
      exact h.2.1.symm
    case isFalse hmain =>
      split at h
      next base hf =>
        simp only [Option.some.injEq, Prod.mk.injEq] at h
        obtain ⟨hb, -, -⟩ := h
        obtain ⟨h1, h2, h3⟩ := matchFresh_inv (strL "MW_") name base hpfxd hpref hf
        exact ⟨hb ▸ h1, hb ▸ h2, by simp [globSav, h3]⟩
      next hf =>
        split at h
        next base k hbak =>
          simp only [Option.some.injEq, Prod.mk.injEq] at h
          obtain ⟨hb, -, -⟩ := h
          obtain ⟨h1, h2, h3⟩ := matchBak_inv (strL "MW_") name base k hpfxd hpref hbak
          exact ⟨hb ▸ h1, hb ▸ h2, by simp [globSav, h3]⟩
        next hbak =>
          split at h
          next base k hbad =>
            simp only [Option.some.injEq, Prod.mk.injEq] at h
            obtain ⟨hb, -, -⟩ := h
            obtain ⟨h1, h2, h3⟩ := matchBad_inv (strL "MW_") name base k hpfxd hpref hbad
            exact ⟨hb ▸ h1, hb ▸ h2, by simp [globSav, h3]⟩
          next hbad => exact absurd h (by simp)

theorem splitOnDot_ne_nil (l : UStr) : splitOnDot l ≠ [] := by
  cases l with
  | nil => simp [splitOnDot]
  | cons c cs =>
    simp only [splitOnDot]
    split
    · simp
    · split <;> simp

theorem splitOnDot_dotless_append (b l : UStr) (hb : ∀ c ∈ b, c ≠ 46) :
    splitOnDot (b ++ 46 :: l) = b :: splitOnDot l := by
  induction b with
  | nil =>
    cases hsp : splitOnDot l with
    | nil => exact absurd hsp (splitOnDot_ne_nil l)
    | cons seg rest =>
      simp only [List.nil_append, splitOnDot, hsp]
      rw [if_pos trivial]
  | cons a b' ih =>
    have ha : a ≠ 46 := hb a (by simp)
    have ih' := ih (fun c hc => hb c (by simp [hc]))
    rw [List.cons_append]
    cases hsp : splitOnDot (b' ++ 46 :: l) with
    | nil => exact absurd hsp (splitOnDot_ne_nil _)
    | cons seg rest =>
      simp only [splitOnDot, hsp]
      rw [if_neg ha]
      rw [ih'] at hsp
      injection hsp with h1 h2
      rw [← h1, ← h2]

/-- A dotless-base main save name has no `.bak` suffix segment. -/
theorem suffixesHasBak_main_false (b : UStr) (hb : ∀ c ∈ b, c ≠ 46) :
    suffixesHasBak (b ++ strL ".sav") = false := by
  unfold suffixesHasBak
  rw [show strL ".sav" = 46 :: strL "sav" from by decide]
  rw [splitOnDot_dotless_append b (strL "sav") hb]
  rw [List.tail_cons]
  decide

/-- All derived facts about a main-classified file name with a dotless base. -/
theorem classify_main_facts (name b : UStr) (n : Option Nat)
    (h : classifyFile (strL "MW_") name = some (b, VType.main, n))
    (hbd : ∀ c ∈ b, c ≠ 46) :
    name = b ++ strL ".sav" ∧ baseOf name = b
      ∧ globSav (strL "MW_") name = true ∧ suffixesHasBak name = false := by
  obtain ⟨hname, -, hpref⟩ := classify_main_inv name b n h
  subst hname
  refine ⟨rfl, ?_, ?_, suffixesHasBak_main_false b hbd⟩
  · unfold baseOf
    apply takeWhile_append_all
    · intro c hc
      simpa using hbd c hc
    · intro c0 hc0
      rw [show (strL ".sav").head? = some 46 from rfl] at hc0
      cases hc0
      simp
  · simp [globSav, hpref, isSuffixOf_append_self]

theorem parse_world_save_inv (inflate : Inflate) (f : MFile) (info : WorldSaveInfo)
    (h : parse_world_save inflate f = some info) : info.file_path = f.name := by
  unfold parse_world_save at h
  split at h
  case isFalse => exact absurd h (by simp)
  case isTrue =>
    split at h
    next hd => exact absurd h (by simp)
    next d hd =>
      simp only [Option.some.injEq] at h
      rw [← h]

/-- Whether the scan loop classifies a file as a primary world save. -/
def isMainFile (f : MFile) : Bool :=
  match classifyFile (strL "MW_") f.name with
  | some (_, VType.main, _) => true
  | _ => false

theorem isMainFile_iff (f : MFile) :
    isMainFile f = true ↔ ∃ b n, classifyFile (strL "MW_") f.name
      = some (b, VType.main, n) := by
  unfold isMainFile
  split
  next b n hcl => simp [hcl]
  next hno =>
    constructor
    · intro hc
      exact absurd hc (by simp)
    · rintro ⟨b, n, hcl⟩
      exact absurd hcl (by
        intro hx
        exact hno b n hx)

/-- Under the recognized/dotless/parseable hypotheses, the parsed world list
carries exactly the base identities of the main-classified files, in order. -/
theorem gws_filterMap_base (inflate : Inflate) (files : List MFile)
    (hrec : ∀ f ∈ files, (classifyFile (strL "MW_") f.name).isSome = true)
    (hdot : ∀ f ∈ files, ∀ b n, classifyFile (strL "MW_") f.name
      = some (b, VType.main, n) → ∀ c ∈ b, c ≠ 46)
    (hparse : ∀ f ∈ files, ∀ b n, classifyFile (strL "MW_") f.name
      = some (b, VType.main, n) → (parse_world_save inflate f).isSome = true) :
    (files.filterMap (fun f =>
        if globSav (strL "MW_") f.name && !(suffixesHasBak f.name) then
          parse_world_save inflate f
        else none)).map (fun w => w.base_name)
      = (files.filter isMainFile).map (fun f => baseOf f.name) := by
  induction files with
  | nil => rfl
  | cons f fs ih =>
    have hr := hrec f (by simp)
    have ihh := ih (fun g hg => hrec g (by simp [hg]))
      (fun g hg => hdot g (by simp [hg]))
      (fun g hg => hparse g (by simp [hg]))
    rcases hcl : classifyFile (strL "MW_") f.name with - | ⟨b, t, n⟩
    · rw [hcl] at hr
      exact absurd hr (by simp)
    · cases t with
      | main =>
        have hbd := hdot f (by simp) b n hcl
        obtain ⟨hname, hbase, hglob, hsb⟩ := classify_main_facts f.name b n hcl hbd
        have hps := hparse f (by simp) b n hcl
        rcases hpw : parse_world_save inflate f with - | info
        · rw [hpw] at hps
          exact absurd hps (by simp)
        · have him : isMainFile f = true := by
            simp [isMainFile, hcl]
          simp only [List.filterMap_cons, List.filter_cons, hglob, hsb, him,
            Bool.not_false, Bool.and_self, if_true, hpw, List.map_cons]
          rw [ihh]
          have hbn : info.base_name = baseOf f.name := by
            unfold WorldSaveInfo.base_name baseOf
            rw [parse_world_save_inv inflate f info hpw]
          rw [hbn]
      | fresh =>
        obtain ⟨hbase, hbd, hglobf⟩ := classify_nonmain_inv f.name b VType.fresh n hcl
          (by simp)
        have him : isMainFile f = false := by
          simp [isMainFile, hcl]
        simp only [List.filterMap_cons, List.filter_cons, hglobf, him, Bool.false_and,
          Bool.false_eq_true, if_false]
        exact ihh
      | backup =>
        obtain ⟨hbase, hbd, hglobf⟩ := classify_nonmain_inv f.name b VType.backup n hcl
          (by simp)
        have him : isMainFile f = false := by
          simp [isMainFile, hcl]
        simp only [List.filterMap_cons, List.filter_cons, hglobf, him, Bool.false_and,
          Bool.false_eq_true, if_false]
        exact ihh
      | bad =>
        obtain ⟨hbase, hbd, hglobf⟩ := classify_nonmain_inv f.name b VType.bad n hcl
          (by simp)
        have him : isMainFile f = false := by
          simp [isMainFile, hcl]
        simp only [List.filterMap_cons, List.filter_cons, hglobf, him, Bool.false_and,
          Bool.false_eq_true, if_false]
        exact ihh

/-- Distinct main-save names give distinct base identities. -/
theorem mains_base_nodup (files : List MFile)
    (hnd : (files.map (fun f => f.name)).Nodup)
    (hdot : ∀ f ∈ files, ∀ b n, classifyFile (strL "MW_") f.name
      = some (b, VType.main, n) → ∀ c ∈ b, c ≠ 46) :
    ((files.filter isMainFile).map (fun f => baseOf f.name)).Nodup := by
  have hsub : ((files.filter isMainFile).map (fun f => f.name)).Sublist
      (files.map (fun f => f.name)) :=
    List.Sublist.map _ (List.filter_sublist files)
  have h1 : ((files.filter isMainFile).map (fun f => f.name)).Nodup :=
    List.Nodup.sublist hsub hnd
  have h2 : (files.filter isMainFile).map (fun f => baseOf f.name)
      = ((files.filter isMainFile).map (fun f => f.name)).map baseOf := by
    rw [List.map_map]
    rfl
  rw [h2]
  refine List.Nodup.map_on ?_ h1
  intro x hx y hy hxy
  obtain ⟨fx, hfx, hfxn⟩ := List.mem_map.mp hx
  obtain ⟨fy, hfy, hfyn⟩ := List.mem_map.mp hy
  have hfx' := List.mem_filter.mp hfx
  have hfy' := List.mem_filter.mp hfy
  obtain ⟨bx, nx, hclx⟩ := (isMainFile_iff fx).mp hfx'.2
  obtain ⟨bb, ny, hcly⟩ := (isMainFile_iff fy).mp hfy'.2
  have hx1 := classify_main_facts fx.name bx nx hclx (hdot fx hfx'.1 bx nx hclx)
  have hy1 := classify_main_facts fy.name bb ny hcly (hdot fy hfy'.1 bb ny hcly)
  rw [← hfxn, ← hfyn] at hxy ⊢
  rw [hx1.2.1, hy1.2.1] at hxy
  rw [hx1.1, hy1.1, hxy]

/-- Building the initial world map from parsed saves with nodup bases:
keys are appended in order and no versions are attached yet. -/
theorem buildMap0_facts (ws : List WorldSaveInfo) :
    ∀ m : List (UStr × WorldWithVersions),
    (ws.map (fun w => w.base_name)).Nodup →
    (∀ b ∈ ws.map (fun w => w.base_name), alMem b m = false) →
    alKeys (ws.foldl (fun m w => alUpsert w.base_name { info := w, versions := [] } m) m)
        = alKeys m ++ ws.map (fun w => w.base_name)
      ∧ vpaths (ws.foldl (fun m w => alUpsert w.base_name { info := w, versions := [] } m) m)
        = vpaths m := by
  induction ws with
  | nil =>
    intro m _ _
    simp
  | cons w ws ih =>
    intro m hnd hdisj
    simp only [List.map_cons, List.nodup_cons] at hnd
    have hmem : alMem w.base_name m = false := hdisj w.base_name (by simp)
    rw [List.foldl_cons]
    have hup : alUpsert w.base_name { info := w, versions := [] } m
        = m ++ [(w.base_name, { info := w, versions := [] })] := by
      simp [alUpsert, hmem]
    rw [hup]
    have hdisj' : ∀ b ∈ ws.map (fun w => w.base_name),
        alMem b (m ++ [(w.base_name, { info := w, versions := [] })]) = false := by
      intro b hbm
      rw [alMem_append]
      have hb1 : alMem b m = false := hdisj b (by simp [hbm])
      have hbne : w.base_name ≠ b := by
        intro he
        rw [he] at hnd
        exact hnd.1 hbm
      have hb2 : alMem b
          [(w.base_name, ({ info := w, versions := [] } : WorldWithVersions))] = false := by
        simp [alMem, hbne]
      rw [hb1, hb2]
      rfl
    obtain ⟨hk, hv⟩ := ih (m ++ [(w.base_name, { info := w, versions := [] })]) hnd.2 hdisj'
    constructor
    · rw [hk, alKeys_append]
      simp [alKeys]
    · rw [hv, vpaths_append]
      simp [vpaths]

/-- Each orphan group adds exactly one entity carrying exactly its buffered
files as versions. -/
theorem processWorldOrphans_facts (inflate : Inflate) (o : List (UStr × List OrphEntry)) :
    ∀ m : List (UStr × WorldWithVersions),
    (alKeys o).Nodup →
    (∀ k ∈ alKeys o, alMem k m = false) →
    (processWorldOrphans inflate m o).length = m.length + o.length
    ∧ (vpaths (processWorldOrphans inflate m o)).Perm (vpaths m ++ opaths o) := by
  induction o with
  | nil =>
    intro m _ _
    constructor
    · rfl
    · rw [show opaths [] = [] from rfl, List.append_nil]
      rw [show processWorldOrphans inflate m [] = m from rfl]
  | cons p o ih =>
    intro m hnd hdisj
    obtain ⟨b, fsO⟩ := p
    have hmem : alMem b m = false := hdisj b (by simp [alKeys])
    simp only [alKeys, List.map_cons, List.nodup_cons] at hnd
    have hstep : processWorldOrphans inflate m ((b, fsO) :: o)
        = processWorldOrphans inflate (m ++ [(b, mkOrphanWorld inflate b fsO)]) o := by
      simp only [processWorldOrphans]
      rw [if_neg (by simp [hmem])]
    rw [hstep]
    have hdisj' : ∀ k ∈ alKeys o,
        alMem k (m ++ [(b, mkOrphanWorld inflate b fsO)]) = false := by
      intro k hk
      rw [alMem_append]
      have hk1 : alMem k m = false := hdisj k (by
        rw [show alKeys ((b, fsO) :: o) = b :: alKeys o from rfl]
        exact List.mem_cons_of_mem _ hk)
      have hkb : b ≠ k := by
        intro he
        rw [he] at hnd
        exact hnd.1 hk
      have hk2 : alMem k [(b, mkOrphanWorld inflate b fsO)] = false := by
        simp [alMem, hkb]
      rw [hk1, hk2]
      rfl
    obtain ⟨hlen, hvp⟩ := ih (m ++ [(b, mkOrphanWorld inflate b fsO)]) hnd.2 hdisj'
    constructor
    · rw [hlen]
      simp only [List.length_append, List.length_cons, List.length_nil]
      omega
    · refine hvp.trans ?_
      rw [vpaths_append, opaths_cons]
      have hone : vpaths [(b, mkOrphanWorld inflate b fsO)]
          = fsO.map (fun e => e.1.name) := by
        simp [vpaths, mkOrphanWorld, mkVer, List.map_map]
      rw [hone, List.append_assoc]

/-- The scan-loop invariant of `get_worlds_with_versions`: the world-map
keys never change, the orphan keys stay nodup and disjoint from the map and
grow only by base identities of scanned files, and every scanned file
contributes its name exactly once to the attached version paths or the
orphan buffers. -/
theorem worldScan_fold (fs : List MFile) :
    ∀ (m : List (UStr × WorldWithVersions)) (o : List (UStr × List OrphEntry)),
    (∀ f ∈ fs, (classifyFile (strL "MW_") f.name).isSome = true) →
    (∀ f ∈ fs, ∀ b n, classifyFile (strL "MW_") f.name
      = some (b, VType.main, n) → ∀ c ∈ b, c ≠ 46) →
    (∀ f ∈ fs, ∀ b n, classifyFile (strL "MW_") f.name
      = some (b, VType.main, n) → alMem b m = true) →
    (alKeys m).Nodup →
    (alKeys o).Nodup →
    (∀ k ∈ alKeys o, alMem k m = false) →
    alKeys (fs.foldl worldScanStep (m, o)).1 = alKeys m
    ∧ (alKeys (fs.foldl worldScanStep (m, o)).2).Nodup
    ∧ (∀ k ∈ alKeys (fs.foldl worldScanStep (m, o)).2, alMem k m = false)
    ∧ (vpaths (fs.foldl worldScanStep (m, o)).1
        ++ opaths (fs.foldl worldScanStep (m, o)).2).Perm
        ((vpaths m ++ opaths o) ++ fs.map (fun f => f.name))
    ∧ (∀ k ∈ alKeys o, k ∈ alKeys (fs.foldl worldScanStep (m, o)).2)
    ∧ (∀ k ∈ alKeys (fs.foldl worldScanStep (m, o)).2,
        k ∈ alKeys o ∨ ∃ f ∈ fs, baseOf f.name = k)
    ∧ (∀ f ∈ fs, baseOf f.name ∈ alKeys m
        ∨ baseOf f.name ∈ alKeys (fs.foldl worldScanStep (m, o)).2) := by
  induction fs with
  | nil =>
    intro m o h1 hdot h2 hm hoa hdisj
    refine ⟨rfl, hoa, hdisj, ?_, fun k hk => hk, fun k hk => Or.inl hk, by simp⟩
    rw [show List.map (fun f => f.name) ([] : List MFile) = [] from rfl, List.append_nil]
    exact List.Perm.refl _
  | cons f fs ih =>
    intro m o h1 hdot h2 hm hoa hdisj
    have hf1 := h1 f (by simp)
    have h1' : ∀ g ∈ fs, (classifyFile (strL "MW_") g.name).isSome = true :=
      fun g hg => h1 g (by simp [hg])
    have hdot' : ∀ g ∈ fs, ∀ b n, classifyFile (strL "MW_") g.name
        = some (b, VType.main, n) → ∀ c ∈ b, c ≠ 46 :=
      fun g hg => hdot g (by simp [hg])
    rcases hcl : classifyFile (strL "MW_") f.name with - | ⟨b, t, n⟩
    · rw [hcl] at hf1
      exact absurd hf1 (by simp)
    · cases t with
      | main =>
        have hmem : alMem b m = true := h2 f (by simp) b n hcl
        have hbb : baseOf f.name = b :=
          (classify_main_facts f.name b n hcl (hdot f (by simp) b n hcl)).2.1
        have hstep : worldScanStep (m, o) f = (wAttach b (mkVer f VType.main none) m, o) := by
          simp only [worldScanStep, hcl]
          rw [if_pos hmem]
        rw [List.foldl_cons, hstep]
        have hkeys : alKeys (wAttach b (mkVer f VType.main none) m) = alKeys m :=
          alKeys_wAttach b _ m
        have h2' : ∀ g ∈ fs, ∀ b' n', classifyFile (strL "MW_") g.name
            = some (b', VType.main, n') →
            alMem b' (wAttach b (mkVer f VType.main none) m) = true := by
          intro g hg b' n' hclg
          rw [alMem_congr_keys b' _ m hkeys]
          exact h2 g (by simp [hg]) b' n' hclg
        have hm' : (alKeys (wAttach b (mkVer f VType.main none) m)).Nodup := by
          rw [hkeys]
          exact hm
        have hdisj' : ∀ k ∈ alKeys o,
            alMem k (wAttach b (mkVer f VType.main none) m) = false := by
          intro k hk
          rw [alMem_congr_keys k _ m hkeys]
          exact hdisj k hk
        obtain ⟨cA, cB, cC, cD, cE, cF, cG⟩ :=
          ih (wAttach b (mkVer f VType.main none) m) o h1' hdot' h2' hm' hoa hdisj'
        refine ⟨?_, cB, ?_, ?_, cE, ?_, ?_⟩
        · rw [cA, hkeys]
        · intro k hk
          rw [← alMem_congr_keys k _ m hkeys]
          exact cC k hk
        · rw [List.map_cons]
          refine cD.trans ?_
          have hv : (vpaths (wAttach b (mkVer f VType.main none) m)).Perm
              (f.name :: vpaths m) := vpaths_wAttach b _ m hm hmem
          refine (List.Perm.append_right _ (List.Perm.append_right _ hv)).trans ?_
          rw [List.cons_append, List.cons_append]
          exact List.perm_middle.symm
        · intro k hk
          rcases cF k hk with h | hex
          · exact Or.inl h
          · obtain ⟨g, hg, hgk⟩ := hex
            exact Or.inr ⟨g, by simp [hg], hgk⟩
        · intro g hg
          rcases List.mem_cons.mp hg with heq | hg'
          · subst heq
            left
            rw [hbb]
            exact (alMem_iff b m).mp hmem
          · rcases cG g hg' with h | h
            · exact Or.inl (by rwa [hkeys] at h)
            · exact Or.inr h
      | fresh =>
        have hbb : baseOf f.name = b :=
          (classify_nonmain_inv f.name b VType.fresh n hcl (by simp)).1
        cases hmm : alMem b m with
        | true =>
          have hstep : worldScanStep (m, o) f = (wAttach b (mkVer f VType.fresh n) m, o) := by
            simp only [worldScanStep, hcl]
            rw [if_pos hmm]
          rw [List.foldl_cons, hstep]
          have hkeys : alKeys (wAttach b (mkVer f VType.fresh n) m) = alKeys m :=
            alKeys_wAttach b _ m
          have h2' : ∀ g ∈ fs, ∀ b' n', classifyFile (strL "MW_") g.name
              = some (b', VType.main, n') →
              alMem b' (wAttach b (mkVer f VType.fresh n) m) = true := by
            intro g hg b' n' hclg
            rw [alMem_congr_keys b' _ m hkeys]
            exact h2 g (by simp [hg]) b' n' hclg
          have hm' : (alKeys (wAttach b (mkVer f VType.fresh n) m)).Nodup := by
            rw [hkeys]
            exact hm
          have hdisj' : ∀ k ∈ alKeys o,
              alMem k (wAttach b (mkVer f VType.fresh n) m) = false := by
            intro k hk
            rw [alMem_congr_keys k _ m hkeys]
            exact hdisj k hk
          obtain ⟨cA, cB, cC, cD, cE, cF, cG⟩ :=
            ih (wAttach b (mkVer f VType.fresh n) m) o h1' hdot' h2' hm' hoa hdisj'
          refine ⟨?_, cB, ?_, ?_, cE, ?_, ?_⟩
          · rw [cA, hkeys]
          · intro k hk
            rw [← alMem_congr_keys k _ m hkeys]
            exact cC k hk
          · rw [List.map_cons]
            refine cD.trans ?_
            have hv : (vpaths (wAttach b (mkVer f VType.fresh n) m)).Perm
                (f.name :: vpaths m) := vpaths_wAttach b _ m hm hmm
            refine (List.Perm.append_right _ (List.Perm.append_right _ hv)).trans ?_
            rw [List.cons_append, List.cons_append]
            exact List.perm_middle.symm
          · intro k hk
            rcases cF k hk with h | hex
            · exact Or.inl h
            · obtain ⟨g, hg, hgk⟩ := hex
              exact Or.inr ⟨g, by simp [hg], hgk⟩
          · intro g hg
            rcases List.mem_cons.mp hg with heq | hg'
            · subst heq
              left
              rw [hbb]
              exact (alMem_iff b m).mp hmm
            · rcases cG g hg' with h | h
              · exact Or.inl (by rwa [hkeys] at h)
              · exact Or.inr h
        | false =>
          have hstep : worldScanStep (m, o) f = (m, orphAdd b (f, VType.fresh, n) o) := by
            simp only [worldScanStep, hcl]
            rw [if_neg (by simp [hmm])]
          rw [List.foldl_cons, hstep]
          have hknd : (alKeys (orphAdd b (f, VType.fresh, n) o)).Nodup := by
            cases hbo : alMem b o with
            | true =>
              rw [alKeys_orphAdd_mem b _ o hbo]
              exact hoa
            | false =>
              rw [alKeys_orphAdd_new b _ o hbo]
              refine List.Nodup.append hoa (by simp) ?_
              rw [List.disjoint_left]
              intro k hk hk2
              rw [List.mem_singleton] at hk2
              subst hk2
              rw [alMem_false_iff] at hbo
              exact hbo hk
          have hdisj2 : ∀ k ∈ alKeys (orphAdd b (f, VType.fresh, n) o),
              alMem k m = false := by
            cases hbo : alMem b o with
            | true =>
              rw [alKeys_orphAdd_mem b _ o hbo]
              exact hdisj
            | false =>
              rw [alKeys_orphAdd_new b _ o hbo]
              intro k hk
              rcases List.mem_append.mp hk with h | h
              · exact hdisj k h
              · rw [List.mem_singleton] at h
                subst h
                exact hmm
          have hsub : ∀ k ∈ alKeys o, k ∈ alKeys (orphAdd b (f, VType.fresh, n) o) := by
            cases hbo : alMem b o with
            | true =>
              rw [alKeys_orphAdd_mem b _ o hbo]
              exact fun k hk => hk
            | false =>
              rw [alKeys_orphAdd_new b _ o hbo]
              exact fun k hk => List.mem_append_left _ hk
          have hsup : ∀ k ∈ alKeys (orphAdd b (f, VType.fresh, n) o),
              k ∈ alKeys o ∨ k = b := by
            cases hbo : alMem b o with
            | true =>
              rw [alKeys_orphAdd_mem b _ o hbo]
              exact fun k hk => Or.inl hk
            | false =>
              rw [alKeys_orphAdd_new b _ o hbo]
              intro k hk
              rcases List.mem_append.mp hk with h | h
              · exact Or.inl h
              · rw [List.mem_singleton] at h
                exact Or.inr h
          have hbmem : b ∈ alKeys (orphAdd b (f, VType.fresh, n) o) := by
            cases hbo : alMem b o with
            | true =>
              rw [alKeys_orphAdd_mem b _ o hbo]
              exact (alMem_iff b o).mp hbo
            | false =>
              rw [alKeys_orphAdd_new b _ o hbo]
              exact List.mem_append_right _ (by simp)
          have h2' : ∀ g ∈ fs, ∀ b' n', classifyFile (strL "MW_") g.name
              = some (b', VType.main, n') → alMem b' m = true :=
            fun g hg b' n' hclg => h2 g (by simp [hg]) b' n' hclg
          obtain ⟨cA, cB, cC, cD, cE, cF, cG⟩ :=
            ih m (orphAdd b (f, VType.fresh, n) o) h1' hdot' h2' hm hknd hdisj2
          refine ⟨cA, cB, cC, ?_, ?_, ?_, ?_⟩
          · rw [List.map_cons]
            refine cD.trans ?_
            have hop : (opaths (orphAdd b (f, VType.fresh, n) o)).Perm
                (f.name :: opaths o) := opaths_orphAdd b (f, VType.fresh, n) o hoa
            refine (List.Perm.append_right _ (List.Perm.append_left _ hop)).trans ?_
            refine (List.Perm.append_right _ List.perm_middle).trans ?_
            rw [List.cons_append]
            exact List.perm_middle.symm
          · intro k hk
            exact cE k (hsub k hk)
          · intro k hk
            rcases cF k hk with h | hex
            · rcases hsup k h with h' | heq
              · exact Or.inl h'
              · subst heq
                exact Or.inr ⟨f, by simp, hbb⟩
            · obtain ⟨g, hg, hgk⟩ := hex
              exact Or.inr ⟨g, by simp [hg], hgk⟩
          · intro g hg
            rcases List.mem_cons.mp hg with heq | hg'
            · subst heq
              right
              rw [hbb]
              exact cE b hbmem
            · exact cG g hg'
      | backup =>
        have hbb : baseOf f.name = b :=
          (classify_nonmain_inv f.name b VType.backup n hcl (by simp)).1
        cases hmm : alMem b m with
        | true =>
          have hstep : worldScanStep (m, o) f = (wAttach b (mkVer f VType.backup n) m, o) := by
            simp only [worldScanStep, hcl]
            rw [if_pos hmm]
          rw [List.foldl_cons, hstep]
          have hkeys : alKeys (wAttach b (mkVer f VType.backup n) m) = alKeys m :=
            alKeys_wAttach b _ m
          have h2' : ∀ g ∈ fs, ∀ b' n', classifyFile (strL "MW_") g.name
              = some (b', VType.main, n') →
              alMem b' (wAttach b (mkVer f VType.backup n) m) = true := by
            intro g hg b' n' hclg
            rw [alMem_congr_keys b' _ m hkeys]
            exact h2 g (by simp [hg]) b' n' hclg
          have hm' : (alKeys (wAttach b (mkVer f VType.backup n) m)).Nodup := by
            rw [hkeys]
            exact hm
          have hdisj' : ∀ k ∈ alKeys o,
              alMem k (wAttach b (mkVer f VType.backup n) m) = false := by
            intro k hk
            rw [alMem_congr_keys k _ m hkeys]
            exact hdisj k hk
          obtain ⟨cA, cB, cC, cD, cE, cF, cG⟩ :=
            ih (wAttach b (mkVer f VType.backup n) m) o h1' hdot' h2' hm' hoa hdisj'
          refine ⟨?_, cB, ?_, ?_, cE, ?_, ?_⟩
          · rw [cA, hkeys]
          · intro k hk
            rw [← alMem_congr_keys k _ m hkeys]
            exact cC k hk
          · rw [List.map_cons]
            refine cD.trans ?_
            have hv : (vpaths (wAttach b (mkVer f VType.backup n) m)).Perm
                (f.name :: vpaths m) := vpaths_wAttach b _ m hm hmm
            refine (List.Perm.append_right _ (List.Perm.append_right _ hv)).trans ?_
            rw [List.cons_append, List.cons_append]
            exact List.perm_middle.symm
          · intro k hk
            rcases cF k hk with h | hex
            · exact Or.inl h
            · obtain ⟨g, hg, hgk⟩ := hex
              exact Or.inr ⟨g, by simp [hg], hgk⟩
          · intro g hg
            rcases List.mem_cons.mp hg with heq | hg'
            · subst heq
              left
              rw [hbb]
              exact (alMem_iff b m).mp hmm
            · rcases cG g hg' with h | h
              · exact Or.inl (by rwa [hkeys] at h)
              · exact Or.inr h
        | false =>
          have hstep : worldScanStep (m, o) f = (m, orphAdd b (f, VType.backup, n) o) := by
            simp only [worldScanStep, hcl]
            rw [if_neg (by simp [hmm])]
          rw [List.foldl_cons, hstep]
          have hknd : (alKeys (orphAdd b (f, VType.backup, n) o)).Nodup := by
            cases hbo : alMem b o with
            | true =>
              rw [alKeys_orphAdd_mem b _ o hbo]
              exact hoa
            | false =>
              rw [alKeys_orphAdd_new b _ o hbo]
              refine List.Nodup.append hoa (by simp) ?_
              rw [List.disjoint_left]
              intro k hk hk2
              rw [List.mem_singleton] at hk2
              subst hk2
              rw [alMem_false_iff] at hbo
              exact hbo hk
          have hdisj2 : ∀ k ∈ alKeys (orphAdd b (f, VType.backup, n) o),
              alMem k m = false := by
            cases hbo : alMem b o with
            | true =>
              rw [alKeys_orphAdd_mem b _ o hbo]
              exact hdisj
            | false =>
              rw [alKeys_orphAdd_new b _ o hbo]
              intro k hk
              rcases List.mem_append.mp hk with h | h
              · exact hdisj k h
              · rw [List.mem_singleton] at h
                subst h
                exact hmm
          have hsub : ∀ k ∈ alKeys o, k ∈ alKeys (orphAdd b (f, VType.backup, n) o) := by
            cases hbo : alMem b o with
            | true =>
              rw [alKeys_orphAdd_mem b _ o hbo]
              exact fun k hk => hk
            | false =>
              rw [alKeys_orphAdd_new b _ o hbo]
              exact fun k hk => List.mem_append_left _ hk
          have hsup : ∀ k ∈ alKeys (orphAdd b (f, VType.backup, n) o),
              k ∈ alKeys o ∨ k = b := by
            cases hbo : alMem b o with
            | true =>
              rw [alKeys_orphAdd_mem b _ o hbo]
              exact fun k hk => Or.inl hk
            | false =>
              rw [alKeys_orphAdd_new b _ o hbo]
              intro k hk
              rcases List.mem_append.mp hk with h | h
              · exact Or.inl h
              · rw [List.mem_singleton] at h
                exact Or.inr h
          have hbmem : b ∈ alKeys (orphAdd b (f, VType.backup, n) o) := by
            cases hbo : alMem b o with
            | true =>
              rw [alKeys_orphAdd_mem b _ o hbo]
              exact (alMem_iff b o).mp hbo
            | false =>
              rw [alKeys_orphAdd_new b _ o hbo]
              exact List.mem_append_right _ (by simp)
          have h2' : ∀ g ∈ fs, ∀ b' n', classifyFile (strL "MW_") g.name
              = some (b', VType.main, n') → alMem b' m = true :=
            fun g hg b' n' hclg => h2 g (by simp [hg]) b' n' hclg
          obtain ⟨cA, cB, cC, cD, cE, cF, cG⟩ :=
            ih m (orphAdd b (f, VType.backup, n) o) h1' hdot' h2' hm hknd hdisj2
          refine ⟨cA, cB, cC, ?_, ?_, ?_, ?_⟩
          · rw [List.map_cons]
            refine cD.trans ?_
            have hop : (opaths (orphAdd b (f, VType.backup, n) o)).Perm
                (f.name :: opaths o) := opaths_orphAdd b (f, VType.backup, n) o hoa
            refine (List.Perm.append_right _ (List.Perm.append_left _ hop)).trans ?_
            refine (List.Perm.append_right _ List.perm_middle).trans ?_
            rw [List.cons_append]
            exact List.perm_middle.symm
          · intro k hk
            exact cE k (hsub k hk)
          · intro k hk
            rcases cF k hk with h | hex
            · rcases hsup k h with h' | heq
              · exact Or.inl h'
              · subst heq
                exact Or.inr ⟨f, by simp, hbb⟩
            · obtain ⟨g, hg, hgk⟩ := hex
              exact Or.inr ⟨g, by simp [hg], hgk⟩
          · intro g hg
            rcases List.mem_cons.mp hg with heq | hg'
            · subst heq
              right
              rw [hbb]
              exact cE b hbmem
            · exact cG g hg'
      | bad =>
        have hbb : baseOf f.name = b :=
          (classify_nonmain_inv f.name b VType.bad n hcl (by simp)).1
        cases hmm : alMem b m with
        | true =>
          have hstep : worldScanStep (m, o) f = (wAttach b (mkVer f VType.bad n) m, o) := by
            simp only [worldScanStep, hcl]
            rw [if_pos hmm]
          rw [List.foldl_cons, hstep]
          have hkeys : alKeys (wAttach b (mkVer f VType.bad n) m) = alKeys m :=
            alKeys_wAttach b _ m
          have h2' : ∀ g ∈ fs, ∀ b' n', classifyFile (strL "MW_") g.name
              = some (b', VType.main, n') →
              alMem b' (wAttach b (mkVer f VType.bad n) m) = true := by
            intro g hg b' n' hclg
            rw [alMem_congr_keys b' _ m hkeys]
            exact h2 g (by simp [hg]) b' n' hclg
          have hm' : (alKeys (wAttach b (mkVer f VType.bad n) m)).Nodup := by
            rw [hkeys]
            exact hm
          have hdisj' : ∀ k ∈ alKeys o,
              alMem k (wAttach b (mkVer f VType.bad n) m) = false := by
            intro k hk
            rw [alMem_congr_keys k _ m hkeys]
            exact hdisj k hk
          obtain ⟨cA, cB, cC, cD, cE, cF, cG⟩ :=
            ih (wAttach b (mkVer f VType.bad n) m) o h1' hdot' h2' hm' hoa hdisj'
          refine ⟨?_, cB, ?_, ?_, cE, ?_, ?_⟩
          · rw [cA, hkeys]
          · intro k hk
            rw [← alMem_congr_keys k _ m hkeys]
            exact cC k hk
          · rw [List.map_cons]
            refine cD.trans ?_
            have hv : (vpaths (wAttach b (mkVer f VType.bad n) m)).Perm
                (f.name :: vpaths m) := vpaths_wAttach b _ m hm hmm
            refine (List.Perm.append_right _ (List.Perm.append_right _ hv)).trans ?_
            rw [List.cons_append, List.cons_append]
            exact List.perm_middle.symm
          · intro k hk
            rcases cF k hk with h | hex
            · exact Or.inl h
            · obtain ⟨g, hg, hgk⟩ := hex
              exact Or.inr ⟨g, by simp [hg], hgk⟩
          · intro g hg
            rcases List.mem_cons.mp hg with heq | hg'
            · subst heq
              left
              rw [hbb]
              exact (alMem_iff b m).mp hmm
            · rcases cG g hg' with h | h
              · exact Or.inl (by rwa [hkeys] at h)
              · exact Or.inr h
        | false =>
          have hstep : worldScanStep (m, o) f = (m, orphAdd b (f, VType.bad, n) o) := by
            simp only [worldScanStep, hcl]
            rw [if_neg (by simp [hmm])]
          rw [List.foldl_cons, hstep]
          have hknd : (alKeys (orphAdd b (f, VType.bad, n) o)).Nodup := by
            cases hbo : alMem b o with
            | true =>
              rw [alKeys_orphAdd_mem b _ o hbo]
              exact hoa
            | false =>
              rw [alKeys_orphAdd_new b _ o hbo]
              refine List.Nodup.append hoa (by simp) ?_
              rw [List.disjoint_left]
              intro k hk hk2
              rw [List.mem_singleton] at hk2
              subst hk2
              rw [alMem_false_iff] at hbo
              exact hbo hk
          have hdisj2 : ∀ k ∈ alKeys (orphAdd b (f, VType.bad, n) o),
              alMem k m = false := by
            cases hbo : alMem b o with
            | true =>
              rw [alKeys_orphAdd_mem b _ o hbo]
              exact hdisj
            | false =>
              rw [alKeys_orphAdd_new b _ o hbo]
              intro k hk
              rcases List.mem_append.mp hk with h | h
              · exact hdisj k h
              · rw [List.mem_singleton] at h
                subst h
                exact hmm
          have hsub : ∀ k ∈ alKeys o, k ∈ alKeys (orphAdd b (f, VType.bad, n) o) := by
            cases hbo : alMem b o with
            | true =>
              rw [alKeys_orphAdd_mem b _ o hbo]
              exact fun k hk => hk
            | false =>
              rw [alKeys_orphAdd_new b _ o hbo]
              exact fun k hk => List.mem_append_left _ hk
          have hsup : ∀ k ∈ alKeys (orphAdd b (f, VType.bad, n) o),
              k ∈ alKeys o ∨ k = b := by
            cases hbo : alMem b o with
            | true =>
              rw [alKeys_orphAdd_mem b _ o hbo]
              exact fun k hk => Or.inl hk
            | false =>
              rw [alKeys_orphAdd_new b _ o hbo]
              intro k hk
              rcases List.mem_append.mp hk with h | h
              · exact Or.inl h
              · rw [List.mem_singleton] at h
                exact Or.inr h
          have hbmem : b ∈ alKeys (orphAdd b (f, VType.bad, n) o) := by
            cases hbo : alMem b o with
            | true =>
              rw [alKeys_orphAdd_mem b _ o hbo]
              exact (alMem_iff b o).mp hbo
            | false =>
              rw [alKeys_orphAdd_new b _ o hbo]
              exact List.mem_append_right _ (by simp)
          have h2' : ∀ g ∈ fs, ∀ b' n', classifyFile (strL "MW_") g.name
              = some (b', VType.main, n') → alMem b' m = true :=
            fun g hg b' n' hclg => h2 g (by simp [hg]) b' n' hclg
          obtain ⟨cA, cB, cC, cD, cE, cF, cG⟩ :=
            ih m (orphAdd b (f, VType.bad, n) o) h1' hdot' h2' hm hknd hdisj2
          refine ⟨cA, cB, cC, ?_, ?_, ?_, ?_⟩
          · rw [List.map_cons]
            refine cD.trans ?_
            have hop : (opaths (orphAdd b (f, VType.bad, n) o)).Perm
                (f.name :: opaths o) := opaths_orphAdd b (f, VType.bad, n) o hoa
            refine (List.Perm.append_right _ (List.Perm.append_left _ hop)).trans ?_
            refine (List.Perm.append_right _ List.perm_middle).trans ?_
            rw [List.cons_append]
            exact List.perm_middle.symm
          · intro k hk
            exact cE k (hsub k hk)
          · intro k hk
            rcases cF k hk with h | hex
            · rcases hsup k h with h' | heq
              · exact Or.inl h'
              · subst heq
                exact Or.inr ⟨f, by simp, hbb⟩
            · obtain ⟨g, hg, hgk⟩ := hex
              exact Or.inr ⟨g, by simp [hg], hgk⟩
          · intro g hg
            rcases List.mem_cons.mp hg with heq | hg'
            · subst heq
              right
              rw [hbb]
              exact cE b hbmem
            · exact cG g hg'
def inflC1 : Inflate := fun _ => none

def fC1bad : MFile := { name := strL "MW_DD.sav", content := [1, 2, 3], mtime := 9, size := 3 }

/-- C1 counterexample: a directory with one recognized file (a primary
`.sav` whose content does not parse) yields zero entities — the file is
silently dropped, against the claim's N = 1, M = 1. -/
theorem c1_counterexample_unparseable_primary_dropped :
    classifyFile (strL "MW_") fC1bad.name = some (strL "MW_DD", VType.main, none)
    ∧ get_worlds_with_versions inflC1 (some [fC1bad]) = [] := by
  constructor
  · decide
  · decide

/-- C1 (amended): in a directory whose files are all recognized by the
classifier, with distinct names, dotless main-save base identities and
parseable main saves, `get_worlds_with_versions` returns exactly one entity
per distinct base identity, and the union of all version lists is a
permutation of the file names — no file is lost and none is duplicated. -/
theorem c1_no_file_loss (inflate : Inflate) (files : List MFile)
    (hrec : ∀ f ∈ files, (classifyFile (strL "MW_") f.name).isSome = true)
    (hnd : (files.map (fun f => f.name)).Nodup)
    (hdot : ∀ f ∈ files, ∀ b n, classifyFile (strL "MW_") f.name
      = some (b, VType.main, n) → ∀ c ∈ b, c ≠ 46)
    (hparse : ∀ f ∈ files, ∀ b n, classifyFile (strL "MW_") f.name
      = some (b, VType.main, n) → (parse_world_save inflate f).isSome = true) :
    (get_worlds_with_versions inflate (some files)).length
        = ((files.map (fun f => baseOf f.name)).dedup).length
    ∧ (((get_worlds_with_versions inflate (some files)).map
          (fun w => w.versions)).flatten.map (fun v => v.file_path)).Perm
        (files.map (fun f => f.name)) := by
  have hgw : get_worlds_with_versions inflate (some files)
      = List.insertionSort
          (fun w1 w2 => w2.info.modified_time.getD 0 ≤ w1.info.modified_time.getD 0)
          ((processWorldOrphans inflate
              (files.foldl worldScanStep
                ((get_world_saves inflate files).foldl
                  (fun m w => alUpsert w.base_name { info := w, versions := [] } m) [],
                  [])).1
              (files.foldl worldScanStep
                ((get_world_saves inflate files).foldl
                  (fun m w => alUpsert w.base_name { info := w, versions := [] } m) [],
                  [])).2).map (fun p => p.2)) := rfl
  rw [hgw]
  set worlds := get_world_saves inflate files with hworlds
  set M0 : List (UStr × WorldWithVersions) := worlds.foldl
    (fun m w => alUpsert w.base_name ({ info := w, versions := [] } : WorldWithVersions) m) []
    with hM0
  set ST := files.foldl worldScanStep (M0, []) with hST
  set M2 := processWorldOrphans inflate ST.1 ST.2 with hM2
  have hperm0 : worlds.Perm (files.filterMap (fun f =>
      if globSav (strL "MW_") f.name && !(suffixesHasBak f.name) then
        parse_world_save inflate f
      else none)) := by
    rw [hworlds]
    unfold get_world_saves
    exact List.perm_insertionSort _ _
  have hwmap : (worlds.map (fun w => w.base_name)).Perm
      ((files.filter isMainFile).map (fun f => baseOf f.name)) := by
    have h := hperm0.map (fun w => w.base_name)
    rwa [gws_filterMap_base inflate files hrec hdot hparse] at h
  have hmndp : ((files.filter isMainFile).map (fun f => baseOf f.name)).Nodup :=
    mains_base_nodup files hnd hdot
  have hwndp : (worlds.map (fun w => w.base_name)).Nodup := hwmap.nodup_iff.mpr hmndp
  obtain ⟨hK0, hV0⟩ := buildMap0_facts worlds [] hwndp (fun b _ => rfl)
  rw [← hM0] at hK0 hV0
  rw [show alKeys ([] : List (UStr × WorldWithVersions)) = [] from rfl,
    List.nil_append] at hK0
  rw [show vpaths ([] : List (UStr × WorldWithVersions)) = [] from rfl] at hV0
  have hK0nd : (alKeys M0).Nodup := by
    rw [hK0]
    exact hwndp
  have h2 : ∀ f ∈ files, ∀ b n, classifyFile (strL "MW_") f.name
      = some (b, VType.main, n) → alMem b M0 = true := by
    intro f hf b n hcl
    rw [alMem_iff, hK0, hwmap.mem_iff]
    refine List.mem_map.mpr ⟨f, List.mem_filter.mpr ⟨hf, (isMainFile_iff f).mpr ⟨b, n, hcl⟩⟩, ?_⟩
    exact (classify_main_facts f.name b n hcl (hdot f hf b n hcl)).2.1
  obtain ⟨sA, sB, sC, sD, -, sF, sG⟩ :=
    worldScan_fold files M0 [] hrec hdot h2 hK0nd (by simp [alKeys]) (by simp [alKeys])
  rw [← hST] at sA sB sC sD sF sG
  rw [hV0, show opaths ([] : List (UStr × List OrphEntry)) = [] from rfl] at sD
  simp only [List.append_nil, List.nil_append] at sD
  have hdisj2 : ∀ k ∈ alKeys ST.2, alMem k ST.1 = false := by
    intro k hk
    rw [alMem_congr_keys k ST.1 M0 sA]
    exact sC k hk
  obtain ⟨hlen2, hvp2⟩ := processWorldOrphans_facts inflate ST.2 ST.1 sB hdisj2
  rw [← hM2] at hlen2 hvp2
  have hndA : (alKeys ST.1).Nodup := by
    rw [sA]
    exact hK0nd
  have hdisjK : List.Disjoint (alKeys ST.1) (alKeys ST.2) := by
    rw [List.disjoint_left]
    intro k hk1 hk2
    have hc := sC k hk2
    rw [alMem_false_iff] at hc
    rw [sA] at hk1
    exact hc hk1
  have hndAll : ((alKeys ST.1) ++ (alKeys ST.2)).Nodup := List.Nodup.append hndA sB hdisjK
  have hKK : ((alKeys ST.1) ++ (alKeys ST.2)).Perm
      ((files.map (fun f => baseOf f.name)).dedup) := by
    rw [List.perm_ext_iff_of_nodup hndAll (List.nodup_dedup _)]
    intro k
    rw [List.mem_dedup, List.mem_append]
    constructor
    · rintro (hk | hk)
      · rw [sA, hK0, hwmap.mem_iff] at hk
        obtain ⟨g, hg, hgk⟩ := List.mem_map.mp hk
        have hgf := List.mem_filter.mp hg
        exact List.mem_map.mpr ⟨g, hgf.1, hgk⟩
      · rcases sF k hk with h | hex
        · simp [alKeys] at h
        · obtain ⟨g, hg, hgk⟩ := hex
          exact List.mem_map.mpr ⟨g, hg, hgk⟩
    · intro hk
      obtain ⟨g, hg, hgk⟩ := List.mem_map.mp hk
      rcases sG g hg with h | h
      · left
        rw [sA, ← hgk]
        exact h
      · right
        rw [← hgk]
        exact h
  constructor
  · have hlsort : (List.insertionSort
        (fun w1 w2 => w2.info.modified_time.getD 0 ≤ w1.info.modified_time.getD 0)
        (M2.map (fun p => p.2))).length = (M2.map (fun p => p.2)).length :=
      (List.perm_insertionSort _ _).length_eq
    rw [hlsort, List.length_map, hlen2]
    rw [show ST.1.length = (alKeys ST.1).length from by simp [alKeys],
      show ST.2.length = (alKeys ST.2).length from by simp [alKeys],
      ← List.length_append, hKK.length_eq]
  · have hps : (List.insertionSort
        (fun w1 w2 => w2.info.modified_time.getD 0 ≤ w1.info.modified_time.getD 0)
        (M2.map (fun p => p.2))).Perm (M2.map (fun p => p.2)) :=
      List.perm_insertionSort _ _
    have he : (((M2.map (fun p => p.2)).map (fun w => w.versions)).flatten.map
        (fun v => v.file_path)) = vpaths M2 := by
      rw [List.map_map]
      rfl
    have hchain := ((hps.map (fun w => w.versions)).flatten).map (fun v => v.file_path)
    rw [he] at hchain
    exact hchain.trans (hvp2.trans sD)

def fC1 : MFile := { name := strL "MW_AB.00.bak", content := [], mtime := 7, size := 0 }

/-- Witness for the amended C1 theorem: a directory with a single numbered
backup (an orphan) yields one entity carrying that one file. -/
theorem c1_no_file_loss_witness :
    (get_worlds_with_versions inflC1 (some [fC1])).length
        = (([fC1].map (fun f => baseOf f.name)).dedup).length
    ∧ (((get_worlds_with_versions inflC1 (some [fC1])).map
          (fun w => w.versions)).flatten.map (fun v => v.file_path)).Perm
        ([fC1].map (fun f => f.name)) :=
  c1_no_file_loss inflC1 [fC1] (by decide) (by decide)
    (by
      intro f hf b n hcl
      rw [List.mem_singleton] at hf
      subst hf
      rw [show classifyFile (strL "MW_") fC1.name = some (strL "MW_AB", VType.backup, some 0)
        from by decide] at hcl
      exact absurd hcl (by simp))
    (by
      intro f hf b n hcl
      rw [List.mem_singleton] at hf
      subst hf
      rw [show classifyFile (strL "MW_") fC1.name = some (strL "MW_AB", VType.backup, some 0)
        from by decide] at hcl
      exact absurd hcl (by simp))

end Moria
